import Mathlib

/-!
# A verified model of the go-openapi document builder

This file embeds the core of the `hydronica/go-openapi` repository in Lean 4:
the schema-synthesis engine (`buildSchema`), the naming machinery
(`hash16`, `GetSchemaName`), the example registry (`Media.AddExample`),
the parameter builder (`Route.AddParam`, `isPrimitive`, `parsePath`,
`OpenAPI.GetRoute`), the document compiler (`OpenAPI.Compile`) and the
route-table wire codec (`Router.MarshalJSON` / `Router.UnmarshalJSON`,
`Code.MarshalText` / `Code.UnmarshalText`).

Modelling conventions:
* Go maps are modelled as association lists kept sorted by key
  (Go map iteration order is unspecified; the sorted order is one
  admissible schedule, and JSON object emission in Go sorts keys anyway).
  A nil map and an empty map are not distinguished except where the Go
  code distinguishes them (`Route.Params`, which uses `Option`).
* Go dynamic values (`any`) are modelled by the inductive `GoVal`;
  machine integers are `Int`, `float64` is modelled as `Rat`.
* Panics are modelled by `Except String`.
-/

set_option maxRecDepth 4000

namespace GoOpenAPI

/-! ## Key orders that reduce

The library order instances on `String` do not evaluate definitionally, so
key comparison is done with self-contained `Bool` functions (code-point
order, which coincides with Go's byte-wise order on UTF-8 strings). -/

/-- Strict code-point order on char lists. -/
def charListLtB : List Char → List Char → Bool
  | [], [] => false
  | [], _ :: _ => true
  | _ :: _, [] => false
  | a :: as, b :: bs =>
    if a.toNat < b.toNat then true
    else if b.toNat < a.toNat then false
    else charListLtB as bs

/-- Strict string order (Go `<` on strings). -/
def strLtB (a b : String) : Bool := charListLtB a.data b.data

/-- The strict key order used by the sorted-map model: a `Bool` comparison
together with the order laws the map lemmas need. -/
class KeyCmp (κ : Type) where
  ltB : κ → κ → Bool
  asymm : ∀ {a b : κ}, ltB a b = true → ltB b a = false
  ltB_trans : ∀ {a b c : κ}, ltB a b = true → ltB b c = true → ltB a c = true
  total_ne : ∀ {a b : κ}, a ≠ b → ltB a b = true ∨ ltB b a = true

instance : KeyCmp Int where
  ltB a b := decide (a < b)
  asymm := by
    intro a b h
    simp_all
    omega
  ltB_trans := by
    intro a b c h1 h2
    simp_all
    omega
  total_ne := by
    intro a b h
    simp only [decide_eq_true_eq]
    omega

instance : KeyCmp String where
  ltB := strLtB
  asymm := by
    suffices hl : ∀ (la lb : List Char), charListLtB la lb = true → charListLtB lb la = false by
      intro a b hab
      exact hl a.data b.data hab
    intro la
    induction la with
    | nil =>
      intro lb h
      cases lb with
      | nil => simp [charListLtB] at h
      | cons b bs => simp [charListLtB]
    | cons a as ih =>
      intro lb h
      cases lb with
      | nil => simp [charListLtB] at h
      | cons b bs =>
        simp only [charListLtB] at h ⊢
        by_cases h1 : a.toNat < b.toNat
        · have h2 : ¬ b.toNat < a.toNat := by omega
          simp [h1, h2]
        · by_cases h2 : b.toNat < a.toNat
          · simp [h1, h2] at h
          · simp only [h1, h2, if_false] at h ⊢
            exact ih bs h
  ltB_trans := by
    suffices hl : ∀ (la lb lc : List Char), charListLtB la lb = true →
        charListLtB lb lc = true → charListLtB la lc = true by
      intro a b c h1 h2
      exact hl a.data b.data c.data h1 h2
    intro la
    induction la with
    | nil =>
      intro lb lc h1 h2
      cases lb with
      | nil => simp [charListLtB] at h1
      | cons b bs =>
        cases lc with
        | nil => simp [charListLtB] at h2
        | cons c cs => simp [charListLtB]
    | cons a as ih =>
      intro lb lc h1 h2
      cases lb with
      | nil => simp [charListLtB] at h1
      | cons b bs =>
        cases lc with
        | nil => simp [charListLtB] at h2
        | cons c cs =>
          simp only [charListLtB] at h1 h2 ⊢
          by_cases hab : a.toNat < b.toNat
          · by_cases hbc : b.toNat < c.toNat
            · have : a.toNat < c.toNat := by omega
              simp [this]
            · by_cases hcb : c.toNat < b.toNat
              · simp [hbc, hcb] at h2
              · have hbc' : b.toNat = c.toNat := by omega
                have : a.toNat < c.toNat := by omega
                simp [this]
          · by_cases hba : b.toNat < a.toNat
            · simp [hab, hba] at h1
            · have hab' : a.toNat = b.toNat := by omega
              by_cases hbc : b.toNat < c.toNat
              · have : a.toNat < c.toNat := by omega
                simp [this]
              · by_cases hcb : c.toNat < b.toNat
                · simp [hbc, hcb] at h2
                · have hac : ¬ a.toNat < c.toNat := by omega
                  have hca : ¬ c.toNat < a.toNat := by omega
                  simp only [hab, hba, if_false] at h1
                  simp only [hbc, hcb, if_false] at h2
                  simp only [hac, hca, if_false]
                  exact ih bs cs h1 h2
  total_ne := by
    suffices hl : ∀ (la lb : List Char), la ≠ lb →
        charListLtB la lb = true ∨ charListLtB lb la = true by
      intro a b hab
      apply hl
      intro hd
      apply hab
      cases a
      cases b
      exact congrArg String.mk hd
    intro la
    induction la with
    | nil =>
      intro lb h
      cases lb with
      | nil => exact absurd rfl h
      | cons b bs => left; simp [charListLtB]
    | cons a as ih =>
      intro lb h
      cases lb with
      | nil => right; simp [charListLtB]
      | cons b bs =>
        by_cases h1 : a.toNat < b.toNat
        · left; simp [charListLtB, h1]
        · by_cases h2 : b.toNat < a.toNat
          · right
            simp [charListLtB, h2]
          · have hab : a = b := by
              have hn : a.toNat = b.toNat := by omega
              exact Char.ofNat_toNat a ▸ Char.ofNat_toNat b ▸ congrArg Char.ofNat hn
            subst hab
            have hne : as ≠ bs := by
              intro hd
              exact h (by rw [hd])
            rcases ih bs hne with h3 | h3
            · left
              simp [charListLtB, h1, h2, h3]
            · right
              simp [charListLtB, h1, h2, h3]

/-! ## Sorted association lists (the model of Go maps) -/

section AList

variable {κ : Type} [DecidableEq κ] [KeyCmp κ] {α : Type}

/-- Lookup in an association list (Go `m[k]`, second result of the comma-ok form). -/
def alGet (l : List (κ × α)) (k : κ) : Option α :=
  match l with
  | [] => none
  | (k', v) :: t => if k = k' then some v else alGet t k

/-- Insert keeping the list sorted by key; replaces the value on an existing key
(Go `m[k] = v`). -/
def alInsert (l : List (κ × α)) (k : κ) (v : α) : List (κ × α) :=
  match l with
  | [] => [(k, v)]
  | (k', v') :: t =>
    if KeyCmp.ltB k k' then (k, v) :: (k', v') :: t
    else if k = k' then (k, v) :: t
    else (k', v') :: alInsert t k v

/-- Keys of the association list. -/
def alKeys (l : List (κ × α)) : List κ := l.map Prod.fst

end AList

/-! ## String helpers -/

/-- ASCII lower-casing, the model of Go `strings.ToLower` restricted to the
ASCII strings the builder is used with. -/
def asciiLower (s : String) : String :=
  String.mk (s.data.map fun c =>
    if 65 ≤ c.toNat ∧ c.toNat ≤ 90 then Char.ofNat (c.toNat + 32) else c)

/-- `leadsWith p l`: `p` is an initial segment of `l`. -/
def leadsWith : List Char → List Char → Bool
  | [], _ => true
  | _ :: _, [] => false
  | p :: ps, c :: cs => p = c && leadsWith ps cs

/-- `hasSub l p`: `p` occurs as a contiguous segment of `l`
(the model of Go `strings.Contains`). -/
def hasSub : List Char → List Char → Bool
  | l, p =>
    if leadsWith p l then true
    else match l with
      | [] => false
      | _ :: t => hasSub t p

/-- Model of Go `strings.Contains s sub`. -/
def strContains (s sub : String) : Bool := hasSub s.data sub.data

/-- Drop the first occurrence of `pat` from `l` (helper for
Go `strings.Replace(s, pat, "", 1)`). -/
def dropFirstSub : List Char → List Char → List Char
  | l, p =>
    if p = [] then l
    else if leadsWith p l then l.drop p.length
    else match l with
      | [] => []
      | c :: t => c :: dropFirstSub t p

/-- Model of Go `strings.Replace(s, pat, "", 1)`. -/
def replaceFirst (s pat : String) : String :=
  if strContains s pat then String.mk (dropFirstSub s.data pat.data) else s

/-- Decimal digits of `n`, least significant first (fuel-structured so that
terms reduce definitionally; `fuel ≥ n` suffices since `n / 10 < n`). -/
def natDigitsAux : Nat → Nat → List Char
  | 0, _ => []
  | fuel + 1, n => if n = 0 then [] else Nat.digitChar (n % 10) :: natDigitsAux fuel (n / 10)

/-- Decimal digits of `n`, most significant first (`"0"` for zero);
the model of Go `strconv.Itoa` on naturals. -/
def natRepr (n : Nat) : String :=
  if n = 0 then "0" else String.mk (natDigitsAux (n + 1) n).reverse

/-- Model of Go `strconv.Itoa`. -/
def intRepr (n : Int) : String :=
  if n < 0 then "-" ++ natRepr n.natAbs else natRepr n.natAbs

/-- Lower-case hexadecimal digits of `n`, no padding
(the model of Go `fmt.Sprintf("%x", n)` on a `uint64`). -/
def natHex (n : Nat) : String := String.mk (Nat.toDigits 16 n)

/-- Insert a string into a sorted list (ascending). -/
def strInsertSorted (x : String) : List String → List String
  | [] => [x]
  | y :: t => if strLtB y x then y :: strInsertSorted x t else x :: y :: t

/-- Insertion sort on strings, the model of Go `sort.Strings`
(byte-wise lexicographic order coincides with code-point order on UTF-8;
any correct sort computes the same ascending list). -/
def sortStrings (l : List String) : List String :=
  l.foldr strInsertSorted []

/-! ## `hash16`: CRC-64/ISO checksum, printed as hex

Model of `hash/crc64` with `crc64.ISO` as used by `hash16` in the source:
initial value `^0`, reflected polynomial `0xD800000000000000`, final
complement, and `fmt.Sprintf("%x", …)` formatting.  The table-driven Go
implementation is modelled by the equivalent bit-at-a-time computation
(`crc64.makeTable` memoises exactly `crcTableEntry`). -/

def crcPoly : Nat := 0xD800000000000000

/-- Bitwise xor on 64-bit words, written as a structural bit loop so that
terms reduce definitionally (`uint64` xor for arguments `< 2^64`). -/
def xorBits : Nat → Nat → Nat → Nat
  | 0, _, _ => 0
  | fuel + 1, a, b =>
    (if a % 2 = b % 2 then 0 else 1) + 2 * xorBits fuel (a / 2) (b / 2)

def xor64 (a b : Nat) : Nat := xorBits 64 a b

/-- One step of the CRC bit loop from `crc64.makeTable`. -/
def crcBitStep (c : Nat) : Nat :=
  if c % 2 = 1 then xor64 (c / 2) crcPoly else c / 2

/-- `crc64.makeTable` entry for index `i < 256`: eight bit steps. -/
def crcTableEntry (i : Nat) : Nat :=
  crcBitStep (crcBitStep (crcBitStep (crcBitStep
    (crcBitStep (crcBitStep (crcBitStep (crcBitStep i)))))))

/-- `crc64.update` for one byte: `crc = tab[byte(crc)^b] ^ (crc >> 8)`. -/
def crcUpdateByte (crc b : Nat) : Nat :=
  xor64 (crcTableEntry (xor64 (crc % 256) b)) (crc / 256)

def crcAllOnes : Nat := 2 ^ 64 - 1

/-- CRC-64/ISO of a byte list (Go `crc64.New(ISO); Write(p); Sum64()`). -/
def crc64iso (bytes : List Nat) : Nat :=
  xor64 crcAllOnes (bytes.foldl crcUpdateByte crcAllOnes)

/-- `hash16` creates a checksum hex string on the string provided
(ASCII byte model of the UTF-8 bytes). -/
def hash16 (s : String) : String :=
  natHex (crc64iso (s.data.map Char.toNat))

/-- The schema-name override registry: the model of the package-global
`namedSchemas` map, passed explicitly. -/
def NameRegistry : Type := List (String × String)

/-- `GetSchemaName` returns a unique name for the schema based on the keys
provided; it uses a predefined name from the registry if one exists. -/
def GetSchemaName (reg : NameRegistry) (keys : List String) : String :=
  let key := hash16 (String.join (sortStrings keys))
  match alGet reg key with
  | some name => name
  | none => key

/-! ## Go dynamic values

`GoTy` models the static (reflect) type of a Go value where the code needs
it (slice element types, pointer pointee types); `GoVal` models a dynamic
value held in an `any`.  `time.Time` values are carried without their
instant (the builder never inspects it); `float64` is carried as `Rat`.
`openapi.JSONString` values are outside the modelled universe (none of the
verified claims exercises them). -/

/-- A struct field type: declared name, `json` tag, `desc` tag, exported
flag, and field type. -/
abbrev GoFieldTy := String × String × String × Bool

inductive GoTy where
  | tint | tfloat | tbool | tstr
  | tany                                   -- interface{}
  | tExample                               -- openapi.Example
  | ttime                                  -- time.Time
  | tcustomTime                            -- openapi.Time
  | tmap                                   -- map[string]T (elem type never inspected)
  | tslice (elem : GoTy)
  | tptr (elem : GoTy)
  | tstruct (name : String) (fields : List (GoFieldTy × GoTy))

inductive GoVal where
  | vnil                                   -- nil interface
  | vint (n : Int)
  | vfloat (q : Rat)
  | vbool (b : Bool)
  | vstr (s : String)
  | vtime                                  -- a time.Time value (zero instant)
  | vcustomTime (format : String)          -- an openapi.Time value (zero instant)
  | vexample (summary desc : String) (value : GoVal)   -- an openapi.Example value
  | vstruct (name : String) (fields : List (GoFieldTy × GoVal))
  | vmap (entries : List (String × GoVal))
  | vslice (elem : GoTy) (elems : List GoVal)
  | vptr (elem : GoTy) (v : Option GoVal)

/-- `reflect.Kind`, restricted to the kinds the builder distinguishes
(slices and arrays behave identically in every switch of the source and
are collapsed). -/
inductive Kind where
  | invalid | kbool | kint | kfloat | kstr | kslice | kmap | kstruct | kptr | kiface
  deriving DecidableEq

/-- Static kind of a type (Go `typ.Kind()`). -/
def kindOfTy : GoTy → Kind
  | .tint => .kint
  | .tfloat => .kfloat
  | .tbool => .kbool
  | .tstr => .kstr
  | .tany => .kiface
  | .tExample | .ttime | .tcustomTime | .tstruct _ _ => .kstruct
  | .tmap => .kmap
  | .tslice _ => .kslice
  | .tptr _ => .kptr

/-- Dynamic kind of a value (Go `reflect.ValueOf(v).Kind()`;
`reflect.ValueOf(nil)` is the zero `Value` of kind `Invalid`). -/
def kindOf : GoVal → Kind
  | .vnil => .invalid
  | .vint _ => .kint
  | .vfloat _ => .kfloat
  | .vbool _ => .kbool
  | .vstr _ => .kstr
  | .vtime | .vcustomTime _ | .vexample _ _ _ | .vstruct _ _ => .kstruct
  | .vmap _ => .kmap
  | .vslice _ _ => .kslice
  | .vptr _ _ => .kptr

/-- `reflect.Kind.String()` for the kinds in the model. -/
def kindStr : Kind → String
  | .invalid => "invalid"
  | .kbool => "bool"
  | .kint => "int"
  | .kfloat => "float64"
  | .kstr => "string"
  | .kslice => "slice"
  | .kmap => "map"
  | .kstruct => "struct"
  | .kptr => "ptr"
  | .kiface => "interface"

mutual

/-- The zero value of a type (Go `reflect.New(ty).Elem().Interface()`;
for an interface type the returned `any` is nil). -/
def zeroVal : GoTy → GoVal
  | .tint => .vint 0
  | .tfloat => .vfloat 0
  | .tbool => .vbool false
  | .tstr => .vstr ""
  | .tany => .vnil
  | .tExample => .vexample "" "" .vnil
  | .ttime => .vtime
  | .tcustomTime => .vcustomTime ""
  | .tmap => .vmap []
  | .tslice t => .vslice t []
  | .tptr t => .vptr t none
  | .tstruct n fs => .vstruct n (zeroFields fs)

def zeroFields : List (GoFieldTy × GoTy) → List (GoFieldTy × GoVal)
  | [] => []
  | (f, t) :: rest => (f, zeroVal t) :: zeroFields rest

end

mutual

/-- Go `fmt.Sprintf("%v", v)`.  Pointer addresses and non-integral float
formatting have no deterministic text; they are approximated (no claim or
witness exercises them). -/
def goFmt : GoVal → String
  | .vnil => "<nil>"
  | .vint n => intRepr n
  | .vfloat q => if q.den = 1 then intRepr q.num else intRepr q.num ++ "/" ++ natRepr q.den
  | .vbool b => if b then "true" else "false"
  | .vstr s => s
  | .vtime => "0001-01-01 00:00:00 +0000 UTC"
  | .vcustomTime f => "\x7b0001-01-01 00:00:00 +0000 UTC " ++ f ++ "\x7d"
  | .vexample s d v => "\x7b" ++ s ++ " " ++ d ++ " " ++ goFmt v ++ "\x7d"
  | .vstruct _ fields => "\x7b" ++ goFmtFields fields ++ "\x7d"
  -- fmt prints map keys sorted; model maps are kept sorted, so stored order
  -- is emission order
  | .vmap entries => "map[" ++ goFmtMap entries ++ "]"
  | .vslice _ elems => "[" ++ goFmtList elems ++ "]"
  | .vptr _ none => "<nil>"
  | .vptr _ (some v) =>
    match kindOf v with
    | .kstruct | .kmap | .kslice => "&" ++ goFmt v
    | _ => "0x0"

def goFmtList : List GoVal → String
  | [] => ""
  | [v] => goFmt v
  | v :: rest => goFmt v ++ " " ++ goFmtList rest

def goFmtFields : List (GoFieldTy × GoVal) → String
  | [] => ""
  | [(_, v)] => goFmt v
  | (_, v) :: rest => goFmt v ++ " " ++ goFmtFields rest

def goFmtMap : List (String × GoVal) → String
  | [] => ""
  | [(k, v)] => k ++ ":" ++ goFmt v
  | (k, v) :: rest => k ++ ":" ++ goFmt v ++ " " ++ goFmtMap rest

end

mutual

/-- Go `reflect.Value.IsZero` (only reached for valid values; `AddParam`
models the panic on `reflect.ValueOf(nil)` separately). -/
def isZeroVal : GoVal → Bool
  | .vnil => true
  | .vint n => n = 0
  | .vfloat q => q = 0
  | .vbool b => !b
  | .vstr s => s = ""
  | .vtime => true
  | .vcustomTime f => f = ""
  | .vexample s d v => s = "" && d = "" && isZeroVal v
  | .vstruct _ fields => isZeroFields fields
  | .vmap entries => entries.isEmpty
  | .vslice _ elems => elems.isEmpty
  | .vptr _ v => v.isNone

def isZeroFields : List (GoFieldTy × GoVal) → Bool
  | [] => true
  | (_, v) :: rest => isZeroVal v && isZeroFields rest

end

/-! ## Schema -/

/-- Schema Object: objects (structs), maps, primitives and arrays
(`openapi.Schema`, fields `Title`, `Type`, `Desc`, `Items`, `Ref`,
`Properties`). -/
inductive Schema where
  | mk (title : String) (type : String) (desc : String)
       (items : Option Schema) (ref : String)
       (properties : List (String × Schema)) : Schema

namespace Schema

def title : Schema → String | mk t _ _ _ _ _ => t
def type : Schema → String | mk _ ty _ _ _ _ => ty
def desc : Schema → String | mk _ _ d _ _ _ => d
def items : Schema → Option Schema | mk _ _ _ i _ _ => i
def ref : Schema → String | mk _ _ _ _ r _ => r
def properties : Schema → List (String × Schema) | mk _ _ _ _ _ p => p

/-- The zero `Schema{}`. -/
def zero : Schema := mk "" "" "" none "" []

/-- `prop.Desc = desc` (struct-tag description copied onto a property). -/
def withDesc (s : Schema) (d : String) : Schema :=
  match s with
  | mk t ty _ i r p => mk t ty d i r p

/-- A plain leaf schema `Schema{Type: ty}`. -/
def ofType (ty : String) : Schema := mk "" ty "" none "" []

/-- An array schema `Schema{Type: Array, Items: &prop}`. -/
def arrOf (prop : Schema) : Schema := mk "" "array" "" (some prop) "" []

/-- A reference schema `Schema{Ref: "#/components/schemas/" + title}`. -/
def refTo (t : String) : Schema := mk "" "" "" none ("#/components/schemas/" ++ t) []

end Schema

mutual

/-- BuildSchema creates a schema object based on a given example object
interface; struct tags are used for additional info (model of the current
`buildSchema`).  The nil check of the source is the `vnil` case; the
`JSONString` special case is outside the modelled value universe. -/
def buildSchema (reg : NameRegistry) : GoVal → Schema
  | .vnil => Schema.zero
  | .vptr ty none => buildZero reg ty        -- nil pointer: classify the zero pointee
  | .vptr _ (some v) =>
    match kindOf v with
    | .kptr => Schema.ofType "invalid ptr"       -- switch has no Pointer case
    | .kiface => Schema.ofType "invalid interface"
    | _ => buildSchema reg v
  | .vint _ => Schema.ofType "integer"
  | .vfloat _ => Schema.ofType "number"
  | .vbool _ => Schema.ofType "boolean"
  | .vstr _ => Schema.ofType "string"
  | .vtime => Schema.mk "time.Time" "string" "" none "" []
  | .vcustomTime _ => Schema.mk "openapi.Time" "string" "" none "" []
  | .vexample _ d v =>
    -- the Example/The*Example special case: title cleared, type from the
    -- wrapped value, description from the example
    let sch := buildSchema reg v
    Schema.mk "" sch.type d none "" []
  | .vstruct name fields =>
    Schema.mk name "object" "" none "" (buildProps reg fields)
  | .vmap entries =>
    match entries with
    | [] => Schema.ofType "object"
    | _ =>
      Schema.mk (GetSchemaName reg (entries.map Prod.fst)) "object" "" none ""
        (buildPropsOfMap reg entries)
  | .vslice ty elems =>
    match kindOfTy ty with
    | .kmap | .kstruct | .kslice =>
      match elems with
      | x :: _ => Schema.arrOf (buildSchema reg x)
      | [] => Schema.arrOf (buildZeroEnter reg ty)
    | _ => Schema.arrOf (buildZeroEnter reg ty)   -- incl. the empty interface-kind todo branch

/-- Struct case: each exported, non-skipped field becomes a property named
by its (",omitempty"-stripped) json tag or field name, with the `desc` tag
copied onto the property. -/
def buildProps (reg : NameRegistry) : List (GoFieldTy × GoVal) → List (String × Schema)
  | [] => []
  | ((fname, jsonTag0, descTag, exported), val) :: rest =>
    let jsonTag := replaceFirst jsonTag0 ",omitempty"
    let acc := buildProps reg rest
    if !exported || jsonTag = "-" then acc
    else
      let varName := if jsonTag ≠ "" then jsonTag else fname
      alInsert acc varName ((buildSchema reg val).withDesc descTag)

/-- Map case: every entry becomes a property. -/
def buildPropsOfMap (reg : NameRegistry) : List (String × GoVal) → List (String × Schema)
  | [] => []
  | (k, v) :: rest => alInsert (buildPropsOfMap reg rest) k (buildSchema reg v)

/-- Re-entering `buildSchema` on the zero value of a type
(`buildSchema(reflect.New(ty).Elem().Interface())`, the empty-slice child
path): the zero of an interface type is a nil `any`. -/
def buildZeroEnter (reg : NameRegistry) : GoTy → Schema
  | .tany => Schema.zero                     -- buildSchema(nil)
  | .tptr t => buildZero reg t               -- nil pointer: zero pointee
  | t => buildZero reg t

/-- The schema the switch assigns to the zero value of `ty`, dispatching on
the static kind (the nil-pointer dereference path stays inside the same
`buildSchema` invocation, so a zero interface hits the default branch). -/
def buildZero (reg : NameRegistry) : GoTy → Schema
  | .tint => Schema.ofType "integer"
  | .tfloat => Schema.ofType "number"
  | .tbool => Schema.ofType "boolean"
  | .tstr => Schema.ofType "string"
  | .tany => Schema.ofType "invalid interface"
  | .tptr _ => Schema.ofType "invalid ptr"
  | .tExample => Schema.zero                 -- Example case on the zero example
  | .ttime => Schema.mk "time.Time" "string" "" none "" []
  | .tcustomTime => Schema.mk "openapi.Time" "string" "" none "" []
  | .tmap => Schema.ofType "object"          -- zero map has no keys
  | .tslice t =>
    match kindOfTy t with
    | _ => Schema.arrOf (buildZeroEnter reg t)   -- zero slice is empty
  | .tstruct name fields =>
    Schema.mk name "object" "" none "" (buildZeroProps reg fields)

def buildZeroProps (reg : NameRegistry) : List (GoFieldTy × GoTy) → List (String × Schema)
  | [] => []
  | ((fname, jsonTag0, descTag, exported), fty) :: rest =>
    let jsonTag := replaceFirst jsonTag0 ",omitempty"
    let acc := buildZeroProps reg rest
    if !exported || jsonTag = "-" then acc
    else
      let varName := if jsonTag ≠ "" then jsonTag else fname
      alInsert acc varName ((buildZeroEnter reg fty).withDesc descTag)

end

/-- `isPrimitive` from the source: pointer values are judged by their static
pointee kind; among struct kinds only a value that *is* an `Example`
(not a pointer to one) passes the type assertion. -/
def isPrimitive (v : GoVal) : Bool :=
  let kind := match v with
    | .vptr ty _ => kindOfTy ty
    | _ => kindOf v
  match kind with
  | .kstruct => match v with | .vexample _ _ _ => true | _ => false
  | .kslice | .kmap | .kiface | .invalid => false
  | _ => true

/-! ## The document model -/

/-- `openapi.Example` (summary, description, embedded literal value). -/
structure Example where
  summary : String := ""
  desc : String := ""
  value : GoVal := .vnil

/-- `openapi.Media`: a schema plus named examples for one content type. -/
structure Media where
  schema : Schema := Schema.zero
  examples : List (String × Example) := []

/-- `openapi.Param` (`In` is a Lean keyword, modelled as `inLoc`). -/
structure Param where
  name : String := ""
  desc : String := ""
  inLoc : String := ""
  schema : Option Schema := none
  examples : List (String × Example) := []

/-- `openapi.Response`; `Status` carries the json:"-" tag in the source. -/
structure Response where
  status : Int := 0
  desc : String := ""
  content : List (String × Media) := []

/-- `openapi.RequestBody`. -/
structure RequestBody where
  desc : String := ""
  content : List (String × Media) := []
  required : Bool := false

/-- `openapi.Route`.  `params` is an `Option` because the Go code
distinguishes a nil `Params` map (re-seeded by `AddParam`) from an empty
one (as made by `GetRoute`). -/
structure Route where
  path : String := ""
  method : String := ""
  tag : List String := []
  summary : String := ""
  responses : List (Int × Response) := []
  params : Option (List (String × Param)) := none
  requests : Option RequestBody := none

/-- `openapi.Router`, key is `path|method`. -/
abbrev Router := List (String × Route)

structure Components where
  schemas : List (String × Schema) := []

structure Info where
  title : String := ""
  version : String := ""
  desc : String := ""

/-- The OpenAPI document root (restricted to the fields the claims need). -/
structure OpenAPI where
  version : String := ""
  info : Info := {}
  paths : Router := []
  components : Components := {}

/-- The `Json` media-type constant, `"application/json"`. -/
def Json : String := "application/json"

/-- `New(title, version, description)`. -/
def New (title version description : String) : OpenAPI :=
  { version := "3.0.3",
    info := { title := title, version := version, desc := description },
    paths := [] }

/-! ## parsePath and GetRoute -/

/-- Matches of the regex `\{([^{}]+)\}`: leftmost non-overlapping
`{…}` groups with a nonempty brace-free interior.  Fuel-structured so that
terms reduce definitionally; every recursive call strictly shortens the
character list, so `fuel ≥ length + 1` suffices. -/
def parsePathAux : Nat → List Char → List String
  | 0, _ => []
  | _ + 1, [] => []
  | fuel + 1, '{' :: rest =>
    let body := rest.takeWhile (fun c => c ≠ '{' && c ≠ '}')
    match rest.drop body.length with
    | '}' :: tail =>
      if body.isEmpty then parsePathAux fuel tail
      else String.mk body :: parsePathAux fuel tail
    | '{' :: tail2 => parsePathAux fuel ('{' :: tail2)
    | _ => []
  | fuel + 1, _ :: rest => parsePathAux fuel rest

/-- `parsePath` goes through a url path and pulls out all params:
values surrounded by `{}`. -/
def parsePath (path : String) : List String :=
  parsePathAux (path.data.length + 1) path.data

/-- The path-parameter seeding loop shared by `GetRoute` and `AddParam`
(in `GetRoute` the description is left zero; `AddParam` passes its own). -/
def seedPathParams (path : String) (desc : String) : List (String × Param) :=
  (parsePath path).foldl (fun acc k =>
    alInsert acc ("path|" ++ k) { name := k, inLoc := "path", desc := desc, examples := [] }) []

/-- `GetRoute` returns the route associated with the path and method,
creating it (with seeded path parameters) if absent; the method is
lower-cased. -/
def OpenAPI.getRoute (o : OpenAPI) (path method : String) : OpenAPI × Route :=
  let method := asciiLower method
  let key := path ++ "|" ++ method
  match alGet o.paths key with
  | some r => (o, r)
  | none =>
    let r : Route := { path := path, method := method,
                       params := some (seedPathParams path "") }
    ({ o with paths := alInsert o.paths key r }, r)

/-- `Route.AddResponse`. -/
def Route.addResponse (r : Route) (resp : Response) : Route :=
  { r with responses := alInsert r.responses resp.status resp }

/-- `Route.AddRequest`. -/
def Route.addRequest (r : Route) (req : RequestBody) : Route :=
  { r with requests := some req }

/-! ## Media.AddExample -/

/-- `Media.AddExample` adds an example object, creating a schema based on
the object passed in; the schema field is only (re)assigned while its
title is empty, and colliding example names get the current map size
appended. -/
def Media.addExample (reg : NameRegistry) (m : Media) (name : String) (i : GoVal) : Media :=
  let schema := buildSchema reg i
  let m := if m.schema.title = "" then { m with schema := schema } else m
  let name := if name = "" then "Example" else name
  let ex : Example := { desc := schema.desc, value := i }
  let name := if (alGet m.examples name).isSome
              then name ++ " " ++ natRepr m.examples.length
              else name
  { m with examples := alInsert m.examples name ex }

/-- `Response.WithNamedExample`: adds the example to the `application/json`
content entry. -/
def Response.withNamedExample (reg : NameRegistry) (r : Response) (name : String) (i : GoVal) : Response :=
  let m := (alGet r.content Json).getD {}
  { r with content := alInsert r.content Json (m.addExample reg name i) }

/-- `Response.WithExample`. -/
def Response.withExample (reg : NameRegistry) (r : Response) (i : GoVal) : Response :=
  r.withNamedExample reg "" i

/-- `RequestBody.WithNamedExample`. -/
def RequestBody.withNamedExample (reg : NameRegistry) (r : RequestBody) (name : String) (i : GoVal) : RequestBody :=
  let m := (alGet r.content Json).getD {}
  { r with content := alInsert r.content Json (m.addExample reg name i) }

/-- `RequestBody.WithExample`. -/
def RequestBody.withExample (reg : NameRegistry) (r : RequestBody) (i : GoVal) : RequestBody :=
  r.withNamedExample reg "" i

/-! ## Route.AddParam -/

/-- Go panic message for `Interface()` on the zero `reflect.Value`
(what `rVal.Interface()` does after `Elem()` on a nil pointer). -/
def panicInterfaceZero : String := "reflect: call of reflect.Value.Interface on zero Value"

/-- Go panic message for `IsZero()` on the zero `reflect.Value`
(what the default branch does on an untyped nil value). -/
def panicIsZeroZero : String := "reflect: call of reflect.Value.IsZero on zero Value"

/-- One iteration of the slice loop in `Route.AddParam`: the element is
added as an example (Example elements are unwrapped: keyed by the summary
when non-empty, the wrapped value becomes the example and the running
element value `elemVal`). -/
def addParamSliceStep (st : Param × GoVal) (v : GoVal) : Param × GoVal :=
  let exName := goFmt v
  match v with
  | .vexample s _ w =>
    let exName := if s ≠ "" then s else exName
    ({ st.1 with examples := alInsert st.1.examples exName { value := w } }, w)
  | _ => ({ st.1 with examples := alInsert st.1.examples exName { value := v } }, st.2)

/-- The `typeswitch` of `Route.AddParam` acting on one parameter; the
`goto typeswitch` after a pointer dereference is the recursive call. -/
def addParamSwitch (reg : NameRegistry) (p : Param) (value : GoVal) : Except String Param :=
  match value with
  | .vslice ty elems =>
    let elemZero := zeroVal ty
    if !isPrimitive elemZero then
      pure { p with desc := "err: invalid param, slice elem must be primitive" }
    else
      let st := elems.foldl addParamSliceStep (p, elemZero)
      let p := st.1
      let p := if p.schema.isNone then { p with schema := some (buildSchema reg st.2) } else p
      pure p
  | .vexample s d w =>
    -- case reflect.Struct, value.(Example): key by summary, store the
    -- example with its summary cleared
    let exName := if s = "" then goFmt value else s
    pure { p with examples := alInsert p.examples exName { summary := "", desc := d, value := w } }
  | .vstruct _ _ | .vtime | .vcustomTime _ | .vmap _ =>
    -- struct (fallthrough) and map
    pure { p with desc := "err: invalid type map|struct" }
  | .vptr _ none =>
    -- Elem() on a nil pointer is the zero Value; Interface() panics
    Except.error panicInterfaceZero
  | .vptr _ (some v) =>
    match kindOf v with
    | .kmap | .kstruct => pure { p with desc := "err: invalid type map|struct" }
    | _ => addParamSwitch reg p v
  | .vnil =>
    -- default branch on an untyped nil: the schema pointer is written,
    -- then IsZero on the zero Value panics
    Except.error panicIsZeroZero
  | _ =>
    -- default: primitives
    let exName := goFmt value
    let p := if p.schema.isNone then { p with schema := some (buildSchema reg value) } else p
    pure (if !isZeroVal value
          then { p with examples := alInsert p.examples exName { value := value } }
          else p)

/-- `Route.AddParam` adds the given type params to the route
(`pType` being path, cookie, query or header). -/
def Route.addParamGo (reg : NameRegistry) (r : Route) (pType name : String)
    (value : GoVal) (desc : String) : Except String Route :=
  let key := pType ++ "|" ++ name
  let params := match r.params with
    | none => seedPathParams r.path desc
    | some ps => ps
  let p := match alGet params key with
    | some p => p
    | none =>
      let p : Param := { inLoc := pType, name := name, desc := desc, examples := [] }
      if pType = "path" then { p with desc := "err: not found in path" } else p
  match addParamSwitch reg p value with
  | .error e => .error e
  | .ok p => .ok { r with params := some (alInsert params key p) }

/-! ## Compile -/

/-- Structured model of the `fmt.Errorf` values `Compile` joins: the data
each message carries (the text layout adds nothing). -/
inductive CompileErr where
  | invalidReq (method path : String) (raw : GoVal)
  | invalidResp (method path : String) (raw : GoVal)
  | badParam (loc name desc : String)

/-- `c.Examples["invalid"].Value` (zero `Example` when absent). -/
def rawInvalid (c : Media) : GoVal :=
  match alGet c.examples "invalid" with
  | some e => e.value
  | none => .vnil

/-- The content loop of `Compile`: skip-and-report `invalid/json` entries,
skip non-object schemas, otherwise insert the definition into the
component table when absent and rewrite the media schema to a `$ref`. -/
def compileContent (isReq : Bool) (method path : String)
    (st : List (String × Schema)) :
    List (String × Media) → List (String × Media) × List (String × Schema) × List CompileErr
  | [] => ([], st, [])
  | (k, c) :: rest =>
    if k = "invalid/json" then
      let e := if isReq then CompileErr.invalidReq method path (rawInvalid c)
               else CompileErr.invalidResp method path (rawInvalid c)
      let r := compileContent isReq method path st rest
      ((k, c) :: r.1, r.2.1, e :: r.2.2)
    else if c.schema.type ≠ "object" then
      let r := compileContent isReq method path st rest
      ((k, c) :: r.1, r.2.1, r.2.2)
    else
      let st1 := if (alGet st c.schema.title).isNone
                 then alInsert st c.schema.title c.schema else st
      let r := compileContent isReq method path st1 rest
      ((k, { c with schema := Schema.refTo c.schema.title }) :: r.1, r.2.1, r.2.2)

/-- The response loop of `Compile`. -/
def compileResponses (method path : String) (st : List (String × Schema)) :
    List (Int × Response) → List (Int × Response) × List (String × Schema) × List CompileErr
  | [] => ([], st, [])
  | (code, resp) :: rest =>
    let rc := compileContent false method path st resp.content
    let rr := compileResponses method path rc.2.1 rest
    ((code, { resp with content := rc.1 }) :: rr.1, rr.2.1, rc.2.2 ++ rr.2.2)

/-- The parameter scan of `Compile`: report every parameter whose
description contains `"err:"`. -/
def paramScan : Option (List (String × Param)) → List CompileErr
  | none => []
  | some ps => ps.filterMap fun kp =>
      if strContains kp.2.desc "err:" then
        some (.badParam kp.2.inLoc kp.2.name kp.2.desc)
      else none

/-- One route of the `Compile` pass: request content, response contents,
then the parameter scan. -/
def compileRoute (st : List (String × Schema)) (r : Route) :
    Route × List (String × Schema) × List CompileErr :=
  let rq : Option RequestBody × List (String × Schema) × List CompileErr :=
    match r.requests with
    | none => (none, st, [])
    | some rb =>
      let rc := compileContent true r.method r.path st rb.content
      (some { rb with content := rc.1 }, rc.2.1, rc.2.2)
  let rs := compileResponses r.method r.path rq.2.1 r.responses
  ({ r with requests := rq.1, responses := rs.1 }, rs.2.1,
    rq.2.2 ++ rs.2.2 ++ paramScan r.params)

/-- The route loop of `Compile`. -/
def compilePaths (st : List (String × Schema)) :
    Router → Router × List (String × Schema) × List CompileErr
  | [] => ([], st, [])
  | (k, r) :: rest =>
    let rr := compileRoute st r
    let rt := compilePaths rr.2.1 rest
    ((k, rr.1) :: rt.1, rt.2.1, rr.2.2 ++ rt.2.2)

/-- `OpenAPI.Compile` consolidates schemas into `components.schemas` and
returns the joined list of issues found (the empty list models a nil
error). -/
def OpenAPI.compile (o : OpenAPI) : OpenAPI × List CompileErr :=
  let r := compilePaths o.components.schemas o.paths
  ({ o with paths := r.1,
            components := { o.components with schemas := r.2.1 } }, r.2.2)

/-- A content entry the compiler leaves untouched: either the reserved
invalid-JSON key, or a non-object schema (in particular every `$ref`
written by a previous pass, whose `Type` is empty). -/
def mediaCompiled (kc : String × Media) : Prop :=
  kc.1 = "invalid/json" ∨ ¬ kc.2.schema.type = "object"

/-- Every content entry of the route is `mediaCompiled`. -/
def routeCompiled (r : Route) : Prop :=
  (∀ rb, r.requests = some rb → ∀ kc ∈ rb.content, mediaCompiled kc) ∧
  (∀ cr ∈ r.responses, ∀ kc ∈ cr.2.content, mediaCompiled kc)

/-! ## The defect list, written from the specification

The spec describes `Compile` as visiting every route and recording every
defect: each request/response content entry stored under the invalid-JSON
content type (attributed to method and path, with the offending raw text)
and every parameter whose description carries an `"err:"` marker
(attributed to location and name).  These definitions follow that
description; the claim theorem compares them with the compiler above. -/

/-- All defects of a single route, per the specification's wording. -/
def routeDefects (r : Route) : List CompileErr :=
  (match r.requests with
   | none => []
   | some rb => rb.content.filterMap fun kc =>
       if kc.1 = "invalid/json"
       then some (.invalidReq r.method r.path (rawInvalid kc.2)) else none)
  ++ (r.responses.map fun cr =>
        cr.2.content.filterMap fun kc =>
          if kc.1 = "invalid/json"
          then some (.invalidResp r.method r.path (rawInvalid kc.2)) else none).flatten
  ++ paramScan r.params

/-- All defects of the whole document, visiting every route. -/
def documentDefects (o : OpenAPI) : List CompileErr :=
  (o.paths.map fun kr => routeDefects kr.2).flatten

/-! ## The route-table wire codec

Models `Router.MarshalJSON` / `Router.UnmarshalJSON`,
`Code.MarshalText` / `Code.UnmarshalText` and the `encoding/json`
marshalling of the route structures.  The interchange is a JSON tree
(`JVal`); JSON numbers are carried as `Rat` (the value universe of Go's
`float64` destination for untyped unmarshalling).

Shape convention: Go's `omitempty` merely suppresses zero-valued fields on
the wire and `json.Unmarshal` restores them as zeros, so the composition
`parse ∘ serialize` is unchanged if the codec emits every field explicitly
and reads them back positionally; the model adopts that canonical shape
(the byte-level wire format itself is outside the verified claims). -/

inductive JVal where
  | null
  | jb (b : Bool)
  | jnum (q : Rat)
  | jstr (s : String)
  | jarr (elems : List JVal)
  | jobj (fields : List (String × JVal))

/-- `Code.MarshalText`: zero is the catch-all `"default"`, anything else is
its decimal text. -/
def codeText (c : Int) : String :=
  if c = 0 then "default" else intRepr c

def isDigitB (c : Char) : Bool := 48 ≤ c.toNat && c.toNat ≤ 57

def charDigit (c : Char) : Nat := c.toNat - 48

/-- Decimal parse of a digit string (the model of `strconv.Atoi` on the
digits part). -/
def parseNatChars (l : List Char) : Except String Nat :=
  if l.isEmpty || !(l.all isDigitB) then .error "invalid syntax"
  else .ok (l.foldl (fun a c => a * 10 + charDigit c) 0)

/-- Decimal integer parse on the character level (code point 45 is the
minus sign; the `+`-prefixed spellings Atoi also accepts never occur on
marshalled output). -/
def codeParseChars : List Char → Except String Int
  | [] => .error "invalid syntax"
  | c :: rest =>
    if c.toNat = 45 then (parseNatChars rest).map (fun n => -(n : Int))
    else (parseNatChars (c :: rest)).map (fun n => (n : Int))

/-- `Code.UnmarshalText`: `"default"` is the zero code, otherwise
`strconv.Atoi`. -/
def codeParse (s : String) : Except String Int :=
  if s = "default" then .ok 0 else codeParseChars s.data

/-- `strings.Split(k, "|")` (code point 124 is `|`). -/
def splitOnPipe : List Char → List (List Char)
  | [] => [[]]
  | c :: rest =>
    if c.toNat = 124 then [] :: splitOnPipe rest
    else match splitOnPipe rest with
      | [] => [[c]]
      | seg :: segs => (c :: seg) :: segs

/-- `s := strings.Split(k, "|"); (s[0], s[1])` — the key split in
`Router.MarshalJSON`.  A key without a separator makes Go panic on `s[1]`;
the model returns an empty method there (well-formed documents never hit
it). -/
def splitPipe (s : String) : String × String :=
  match splitOnPipe s.data with
  | [] => ("", "")
  | [p] => (String.mk p, "")
  | p :: m :: _ => (String.mk p, String.mk m)

def pipeFree (s : String) : Bool := s.data.all fun c => c.toNat ≠ 124

/-! ### Marshalling -/

mutual

/-- `json.Marshal` of a dynamic value. -/
def serVal : GoVal → JVal
  | .vnil => .null
  | .vint n => .jnum n
  | .vfloat q => .jnum q
  | .vbool b => .jb b
  | .vstr s => .jstr s
  | .vtime => .jstr "0001-01-01T00:00:00Z"     -- RFC3339 of the zero instant
  | .vcustomTime _ => .jstr ""                  -- custom layouts not modelled
  | .vexample s d v =>
    .jobj [("summary", .jstr s), ("description", .jstr d), ("value", serVal v)]
  | .vstruct _ fields => .jobj (serValFields fields)
  | .vmap entries => .jobj (serValEntries entries)  -- stored order is sorted
  | .vslice _ elems => .jarr (serValList elems)
  | .vptr _ none => .null
  | .vptr _ (some v) => serVal v

def serValFields : List (GoFieldTy × GoVal) → List (String × JVal)
  | [] => []
  | ((fname, jsonTag0, _, exported), v) :: rest =>
    let jsonTag := replaceFirst jsonTag0 ",omitempty"
    if !exported || jsonTag = "-" then serValFields rest
    else ((if jsonTag ≠ "" then jsonTag else fname), serVal v) :: serValFields rest

def serValEntries : List (String × GoVal) → List (String × JVal)
  | [] => []
  | (k, v) :: rest => (k, serVal v) :: serValEntries rest

def serValList : List GoVal → List JVal
  | [] => []
  | v :: rest => serVal v :: serValList rest

end

mutual

/-- `json.Unmarshal` into an `any`: objects become string-keyed maps,
arrays `[]any`, numbers `float64`. -/
def parseVal : JVal → GoVal
  | .null => .vnil
  | .jb b => .vbool b
  | .jnum q => .vfloat q
  | .jstr s => .vstr s
  | .jarr elems => .vslice .tany (parseValList elems)
  | .jobj fields => .vmap (parseValEntries fields [])

def parseValList : List JVal → List GoVal
  | [] => []
  | j :: rest => parseVal j :: parseValList rest

def parseValEntries : List (String × JVal) → List (String × GoVal) → List (String × GoVal)
  | [], acc => acc
  | (k, j) :: rest, acc => parseValEntries rest (alInsert acc k (parseVal j))

end

mutual

def serSchema : Schema → JVal
  | .mk t ty d items ref props =>
    .jobj [("title", .jstr t), ("type", .jstr ty), ("description", .jstr d),
           ("items", serSchemaItems items), ("$ref", .jstr ref),
           ("properties", .jobj (serSchemaProps props))]

def serSchemaItems : Option Schema → JVal
  | none => .null
  | some s => serSchema s

def serSchemaProps : List (String × Schema) → List (String × JVal)
  | [] => []
  | (k, s) :: rest => (k, serSchema s) :: serSchemaProps rest

end

mutual

def parseSchema : JVal → Schema
  | .jobj fs => parseSchemaFields fs
  | _ => Schema.zero

def parseSchemaFields : List (String × JVal) → Schema
  | [("title", .jstr t), ("type", .jstr ty), ("description", .jstr d),
     ("items", .null), ("$ref", .jstr ref), ("properties", .jobj propsJ)] =>
    Schema.mk t ty d none ref (parseSchemaProps propsJ [])
  | [("title", .jstr t), ("type", .jstr ty), ("description", .jstr d),
     ("items", itemsJ), ("$ref", .jstr ref), ("properties", .jobj propsJ)] =>
    Schema.mk t ty d (some (parseSchema itemsJ)) ref (parseSchemaProps propsJ [])
  | _ => Schema.zero

def parseSchemaProps : List (String × JVal) → List (String × Schema) → List (String × Schema)
  | [], acc => acc
  | (k, j) :: rest, acc => parseSchemaProps rest (alInsert acc k (parseSchema j))

end

def serExample (e : Example) : JVal :=
  .jobj [("summary", .jstr e.summary), ("description", .jstr e.desc),
         ("value", serVal e.value)]

def parseExample : JVal → Example
  | .jobj [("summary", .jstr s), ("description", .jstr d), ("value", vj)] =>
    { summary := s, desc := d, value := parseVal vj }
  | _ => {}

def serMedia (m : Media) : JVal :=
  .jobj [("schema", serSchema m.schema),
         ("examples", .jobj (m.examples.map fun ke => (ke.1, serExample ke.2)))]

def parseExamples : List (String × JVal) → List (String × Example) → List (String × Example)
  | [], acc => acc
  | (k, j) :: rest, acc => parseExamples rest (alInsert acc k (parseExample j))

def parseMedia : JVal → Media
  | .jobj [("schema", sj), ("examples", .jobj exJ)] =>
    { schema := parseSchema sj, examples := parseExamples exJ [] }
  | _ => {}

def serContent (content : List (String × Media)) : JVal :=
  .jobj (content.map fun km => (km.1, serMedia km.2))

def parseContentEntries : List (String × JVal) → List (String × Media) → List (String × Media)
  | [], acc => acc
  | (k, j) :: rest, acc => parseContentEntries rest (alInsert acc k (parseMedia j))

def parseContent : JVal → List (String × Media)
  | .jobj l => parseContentEntries l []
  | _ => []

/-- `Response` marshals without its `Status` field (json tag `-`). -/
def serResponse (r : Response) : JVal :=
  .jobj [("description", .jstr r.desc), ("content", serContent r.content)]

/-- The parsed `Status` is the zero `Code`: the unmarshaller never sets
the field carrying `json:"-"`. -/
def parseResponse (j : JVal) : Response :=
  match j with
  | .jobj [("description", .jstr d), ("content", cj)] =>
    { status := 0, desc := d, content := parseContent cj }
  | _ => {}

def serResponses (rs : List (Int × Response)) : JVal :=
  .jobj (rs.map fun cr => (codeText cr.1, serResponse cr.2))

def parseResponsesEntries : List (String × JVal) → List (Int × Response) →
    Except String (List (Int × Response))
  | [], acc => .ok acc
  | (ks, rj) :: rest, acc =>
    match codeParse ks with
    | .error e => .error e
    | .ok c => parseResponsesEntries rest (alInsert acc c (parseResponse rj))

def parseResponses : JVal → Except String (List (Int × Response))
  | .jobj l => parseResponsesEntries l []
  | _ => .error "json: cannot unmarshal responses"

def serRequestBody (rb : RequestBody) : JVal :=
  .jobj [("description", .jstr rb.desc), ("content", serContent rb.content),
         ("required", .jb rb.required)]

def parseRequestBody : JVal → RequestBody
  | .jobj [("description", .jstr d), ("content", cj), ("required", .jb req)] =>
    { desc := d, content := parseContent cj, required := req }
  | _ => {}

/-- `Params.List` sorts the parameter map values by location then name
(the serialized form; `Params.UnmarshalJSON` discards it on the way back). -/
def paramLtB (a b : Param) : Bool :=
  if a.inLoc = b.inLoc then strLtB a.name b.name else strLtB a.inLoc b.inLoc

def paramInsertSorted (x : Param) : List Param → List Param
  | [] => [x]
  | y :: t => if paramLtB y x then y :: paramInsertSorted x t else x :: y :: t

def paramsList (ps : List (String × Param)) : List Param :=
  (ps.map Prod.snd).foldr paramInsertSorted []

def serParam (p : Param) : JVal :=
  .jobj [("name", .jstr p.name), ("description", .jstr p.desc),
         ("in", .jstr p.inLoc),
         ("schema", serSchemaItems p.schema),
         ("examples", .jobj (p.examples.map fun ke => (ke.1, serExample ke.2)))]

def serParams : Option (List (String × Param)) → JVal
  | none => .jarr []
  | some ps => .jarr ((paramsList ps).map serParam)

def serTags (tags : List String) : JVal := .jarr (tags.map JVal.jstr)

def parseTags : List JVal → List String
  | [] => []
  | .jstr s :: rest => s :: parseTags rest
  | _ :: rest => "" :: parseTags rest

def serRoute (rt : Route) : JVal :=
  .jobj [("tags", serTags rt.tag),
         ("summary", .jstr rt.summary),
         ("responses", serResponses rt.responses),
         ("parameters", serParams rt.params),
         ("requestBody", match rt.requests with
                         | none => .null
                         | some rb => serRequestBody rb)]

def parseRequests : JVal → Option RequestBody
  | .null => none
  | j => some (parseRequestBody j)

/-- Unmarshalling one route: the internal `path`/`method` fields are set by
`Router.UnmarshalJSON` afterwards; the custom `Params.UnmarshalJSON`
discards the parameter list, leaving a nil map. -/
def parseRoute : JVal → Except String Route
  | .jobj [("tags", .jarr tagsJ), ("summary", .jstr sm), ("responses", respJ),
           ("parameters", _), ("requestBody", reqJ)] =>
    match parseResponses respJ with
    | .error e => .error e
    | .ok resps =>
      .ok { path := "", method := "", tag := parseTags tagsJ, summary := sm,
            responses := resps, params := none, requests := parseRequests reqJ }
  | _ => .error "json: cannot unmarshal route"

/-- The grouping loop of `Router.MarshalJSON`:
`data[path][method] = route`. -/
def routerGroupStep (acc : List (String × List (String × Route)))
    (kr : String × Route) : List (String × List (String × Route)) :=
  let pm := splitPipe kr.1
  alInsert acc pm.1 (alInsert ((alGet acc pm.1).getD []) pm.2 kr.2)

def routerGroup (r : Router) : List (String × List (String × Route)) :=
  r.foldl routerGroupStep []

/-- `Router.MarshalJSON`: the nested `paths[path][method]` object. -/
def routerMarshal (r : Router) : JVal :=
  .jobj ((routerGroup r).map fun pm =>
    (pm.1, JVal.jobj (pm.2.map fun mr => (mr.1, serRoute mr.2))))

def routerUnmarshalMethods (p : String) (acc : Router) :
    List (String × JVal) → Except String Router
  | [] => .ok acc
  | (m, rv) :: rest =>
    match parseRoute rv with
    | .error e => .error e
    | .ok rt =>
      routerUnmarshalMethods p
        (alInsert acc (p ++ "|" ++ m) { rt with path := p, method := m }) rest

def routerUnmarshalPaths (acc : Router) :
    List (String × JVal) → Except String Router
  | [] => .ok acc
  | (p, pv) :: rest =>
    match pv with
    | .jobj methods =>
      match routerUnmarshalMethods p acc methods with
      | .error e => .error e
      | .ok acc' => routerUnmarshalPaths acc' rest
    | _ => .error "json: cannot unmarshal path item"

/-- `Router.UnmarshalJSON`: flattens the nested object back to the
`path|method`-keyed table, restoring each route's internal fields. -/
def routerUnmarshal : JVal → Except String Router
  | .jobj paths => routerUnmarshalPaths [] paths
  | _ => .error "json: cannot unmarshal paths"

def serInfo (i : Info) : JVal :=
  .jobj [("title", .jstr i.title), ("version", .jstr i.version),
         ("description", .jstr i.desc)]

def parseInfo : JVal → Info
  | .jobj [("title", .jstr t), ("version", .jstr v), ("description", .jstr d)] =>
    { title := t, version := v, desc := d }
  | _ => {}

def serComponents (c : Components) : JVal :=
  .jobj [("schemas", .jobj (c.schemas.map fun ks => (ks.1, serSchema ks.2)))]

def parseComponents : JVal → Components
  | .jobj [("schemas", .jobj l)] => { schemas := parseSchemaProps l [] }
  | _ => {}

/-- `json.Marshal` of the document. -/
def serialize (o : OpenAPI) : JVal :=
  .jobj [("openapi", .jstr o.version), ("info", serInfo o.info),
         ("paths", routerMarshal o.paths),
         ("components", serComponents o.components)]

/-- `NewFromJson`: unmarshal the document (route table via
`Router.UnmarshalJSON`). -/
def parseDoc : JVal → Except String OpenAPI
  | .jobj [("openapi", .jstr v), ("info", infoJ), ("paths", pathsJ),
           ("components", compJ)] =>
    match routerUnmarshal pathsJ with
    | .error e => .error e
    | .ok ps =>
      .ok { version := v, info := parseInfo infoJ, paths := ps,
            components := parseComponents compJ }
  | _ => .error "json: cannot unmarshal document"

/-! ### What the round trip preserves -/

/-- A response after the round trip: the `Status` field is reset to the
zero code (the status lives only in the map key). -/
def zeroStatuses (rs : List (Int × Response)) : List (Int × Response) :=
  rs.map fun cr => (cr.1, { cr.2 with status := 0 })

/-- A route after the round trip: statuses zeroed and the parameter map
dropped (its custom unmarshaller discards the data). -/
def transformRoute (rt : Route) : Route :=
  { rt with params := none, responses := zeroStatuses rt.responses }

def transformPaths (ps : Router) : Router :=
  ps.map fun kr => (kr.1, transformRoute kr.2)

/-! ### Well-formedness (decidable) -/

/-- Keys strictly ascending (hence duplicate-free): the canonical state of
the sorted-map model. -/
def sortedKeysB {κ : Type} [KeyCmp κ] {α : Type} : List (κ × α) → Bool
  | [] => true
  | [_] => true
  | a :: b :: t => KeyCmp.ltB a.1 b.1 && sortedKeysB (b :: t)

mutual

/-- Values inside the image of JSON unmarshalling into `any`: what survives
a marshal/unmarshal cycle unchanged. -/
def jsonNormalB : GoVal → Bool
  | .vnil => true
  | .vbool _ => true
  | .vfloat _ => true
  | .vstr _ => true
  | .vslice .tany elems => jsonNormalListB elems
  | .vmap entries => sortedKeysB entries && jsonNormalEntriesB entries
  | _ => false

def jsonNormalListB : List GoVal → Bool
  | [] => true
  | v :: rest => jsonNormalB v && jsonNormalListB rest

def jsonNormalEntriesB : List (String × GoVal) → Bool
  | [] => true
  | (_, v) :: rest => jsonNormalB v && jsonNormalEntriesB rest

end

mutual

def wfSchemaB : Schema → Bool
  | .mk _ _ _ items _ props =>
    sortedKeysB props && wfSchemaItemsB items && wfSchemaPropsB props

def wfSchemaItemsB : Option Schema → Bool
  | none => true
  | some s => wfSchemaB s

def wfSchemaPropsB : List (String × Schema) → Bool
  | [] => true
  | (_, s) :: rest => wfSchemaB s && wfSchemaPropsB rest

end

def wfExamplesB (l : List (String × Example)) : Bool :=
  sortedKeysB l && l.all fun ke => jsonNormalB ke.2.value

def wfMediaB (m : Media) : Bool :=
  wfSchemaB m.schema && wfExamplesB m.examples

def wfContentB (content : List (String × Media)) : Bool :=
  sortedKeysB content && content.all fun km => wfMediaB km.2

def wfRouteB (rt : Route) : Bool :=
  sortedKeysB rt.responses &&
  (rt.responses.all fun cr => wfContentB cr.2.content) &&
  (match rt.requests with
   | none => true
   | some rb => wfContentB rb.content)

def wfRouterB (ps : Router) : Bool :=
  sortedKeysB ps &&
  ps.all fun kr =>
    kr.1 = kr.2.path ++ "|" ++ kr.2.method &&
    pipeFree kr.2.path && pipeFree kr.2.method && wfRouteB kr.2

def wfDocB (o : OpenAPI) : Bool :=
  wfRouterB o.paths &&
  sortedKeysB o.components.schemas &&
  (o.components.schemas.all fun ks => wfSchemaB ks.2)

/-! ### Round-trip bookkeeping -/

/-- Propositional form of `sortedKeysB`: keys pairwise strictly ascending. -/
@[reducible] def sortedP {κ : Type} [KeyCmp κ] {α : Type}
    (l : List (κ × α)) : Prop :=
  l.Pairwise fun a b => KeyCmp.ltB a.1 b.1 = true

/-- `alInsert` in the uncurried form folds use. -/
def alInsertKV {κ : Type} [DecidableEq κ] [KeyCmp κ] {α : Type}
    (a : List (κ × α)) (kv : κ × α) : List (κ × α) :=
  alInsert a kv.1 kv.2

/-- What `parseRoute` produces from a marshalled route before
`Router.UnmarshalJSON` restores `path`/`method`. -/
def stripRoute (rt : Route) : Route :=
  { path := "", method := "", tag := rt.tag, summary := rt.summary,
    responses := zeroStatuses rt.responses, params := none,
    requests := rt.requests }

/-- A route as re-inserted by the unmarshal loop at path `p`, method `m`. -/
def groupTransform (p m : String) (rt : Route) : Route :=
  { stripRoute rt with path := p, method := m }

/-- The flattened content of a marshalling group, with each route carrying
the transform the unmarshal loop applies. -/
def innerFlatT (p : String) (inner : List (String × Route)) : Router :=
  inner.map fun mr => (p ++ "|" ++ mr.1, groupTransform p mr.1 mr.2)

def flatGT (g : List (String × List (String × Route))) : Router :=
  (g.map fun pm => innerFlatT pm.1 pm.2).flatten

/-- A parameter map for the round-trip scenarios. -/
def c6params : List (String × Param) :=
  [("path|id", { name := "id", inLoc := "path", desc := "", schema := none,
                 examples := [] })]

/-- A document with one route holding a request body, a 200 and a 400
response, and a parameter — the scenario the round-trip property quantifies
over. -/
def c6doc : OpenAPI :=
  { version := "3.0.3",
    info := { title := "T", version := "1.0.0", desc := "demo" },
    paths := [("/pets|post",
      { path := "/pets", method := "post", tag := ["pets"],
        summary := "create",
        responses :=
          [(200, { status := 200, desc := "ok",
                   content := [(Json, { schema := Schema.ofType "string",
                                        examples := [] })] }),
           (400, { status := 400, desc := "bad request", content := [] })],
        params := some c6params,
        requests := some { desc := "body",
                           content := [(Json, { schema := Schema.ofType "integer",
                                                examples := [] })],
                           required := true } })],
    components := { schemas := [] } }

/-! # Theorems -/

/-! ## Generic order lemmas for `KeyCmp` -/

section KeyCmpLemmas

variable {κ : Type} [DecidableEq κ] [KeyCmp κ]

theorem kc_irrefl (a : κ) : KeyCmp.ltB a a = false := by
  by_cases h : KeyCmp.ltB a a = true
  · have := KeyCmp.asymm h
    simp [h] at this
  · simpa using h

theorem kc_nlt_trans {a b c : κ} (h1 : KeyCmp.ltB b a = false)
    (h2 : KeyCmp.ltB c b = false) : KeyCmp.ltB c a = false := by
  by_cases hca : KeyCmp.ltB c a = true
  · by_cases hcb : c = b
    · subst hcb
      exact absurd hca (by simp [h1])
    · rcases KeyCmp.total_ne hcb with h3 | h3
      · exact absurd h3 (by simp [h2])
      · have := KeyCmp.ltB_trans h3 hca
        exact absurd this (by simp [h1])
  · simpa using hca

theorem kc_eq_of_nlt {a b : κ} (h1 : KeyCmp.ltB a b = false)
    (h2 : KeyCmp.ltB b a = false) : a = b := by
  by_cases h : a = b
  · exact h
  · rcases KeyCmp.total_ne h with h3 | h3
    · exact absurd h3 (by simp [h1])
    · exact absurd h3 (by simp [h2])

end KeyCmpLemmas

/-! ## Association-list lemmas -/

section AListLemmas

variable {κ : Type} [DecidableEq κ] [KeyCmp κ] {α : Type}

theorem alGet_insert_self (l : List (κ × α)) (k : κ) (v : α) :
    alGet (alInsert l k v) k = some v := by
  induction l with
  | nil => simp [alInsert, alGet]
  | cons h t ih =>
    obtain ⟨k', v'⟩ := h
    by_cases h1 : KeyCmp.ltB k k' = true
    · simp [alInsert, h1, alGet]
    · by_cases h2 : k = k'
      · subst h2
        simp [alInsert, kc_irrefl, alGet]
      · simp [alInsert, h1, h2, alGet, ih]

theorem alGet_insert_ne (l : List (κ × α)) (k k' : κ) (v : α) (hne : k' ≠ k) :
    alGet (alInsert l k v) k' = alGet l k' := by
  induction l with
  | nil => simp [alInsert, alGet, hne]
  | cons h t ih =>
    obtain ⟨k0, v0⟩ := h
    by_cases h1 : KeyCmp.ltB k k0 = true
    · simp [alInsert, h1, alGet, hne]
    · by_cases h2 : k = k0
      · subst h2
        simp [alInsert, h1, alGet, hne]
      · by_cases h3 : k' = k0
        · simp [alInsert, h1, h2, alGet, h3]
        · simp [alInsert, h1, h2, alGet, h3, ih]

theorem alGet_eq_none_cons {k0 : κ} {v0 : α} {t : List (κ × α)} {k : κ}
    (h : alGet ((k0, v0) :: t) k = none) : k ≠ k0 ∧ alGet t k = none := by
  by_cases hk : k = k0
  · simp [alGet, hk] at h
  · simp [alGet, hk] at h
    exact ⟨hk, h⟩

/-- Inserting an absent key grows the list by one entry. -/
theorem alInsert_length_of_get_none (l : List (κ × α)) (k : κ) (v : α)
    (h : alGet l k = none) : (alInsert l k v).length = l.length + 1 := by
  induction l with
  | nil => simp [alInsert]
  | cons hd t ih =>
    obtain ⟨k0, v0⟩ := hd
    obtain ⟨hne, ht⟩ := alGet_eq_none_cons h
    by_cases h1 : KeyCmp.ltB k k0 = true
    · simp [alInsert, h1]
    · simp [alInsert, h1, hne, ih ht]

end AListLemmas

/-! ## Sorting lemmas -/

/-- The non-strict order underlying ascending sortedness. -/
def strLeP (a b : String) : Prop := KeyCmp.ltB b a = false

theorem strLeP_of_ltB {a b : String} (h : strLtB a b = true) : strLeP a b :=
  @KeyCmp.asymm String _ a b h

theorem strInsertSorted_perm (x : String) (l : List String) :
    (strInsertSorted x l).Perm (x :: l) := by
  induction l with
  | nil => simp [strInsertSorted]
  | cons y t ih =>
    by_cases h : strLtB y x = true
    · simp only [strInsertSorted, h, if_true]
      exact ((ih.cons y).trans (List.Perm.swap x y t))
    · simp only [strInsertSorted, h]
      simp [h]

theorem sortStrings_perm (l : List String) : (sortStrings l).Perm l := by
  induction l with
  | nil => simp [sortStrings]
  | cons x t ih =>
    simp only [sortStrings, List.foldr_cons]
    exact (strInsertSorted_perm x _).trans (ih.cons x)

theorem strInsertSorted_sorted (x : String) (l : List String)
    (h : l.Sorted strLeP) : (strInsertSorted x l).Sorted strLeP := by
  induction l with
  | nil => simp [strInsertSorted]
  | cons y t ih =>
    rcases List.sorted_cons.1 h with ⟨hy, ht⟩
    by_cases hxy : strLtB y x = true
    · rw [strInsertSorted, if_pos hxy]
      refine List.sorted_cons.2 ⟨?_, ih ht⟩
      intro b hb
      have hb' : b ∈ x :: t := (strInsertSorted_perm x t).mem_iff.1 hb
      rcases List.mem_cons.1 hb' with hb2 | hb2
      · subst hb2
        exact strLeP_of_ltB hxy
      · exact hy b hb2
    · rw [strInsertSorted, if_neg hxy]
      refine List.sorted_cons.2 ⟨?_, h⟩
      intro b hb
      have hxy' : KeyCmp.ltB y x = false := by
        show strLtB y x = false
        simpa using hxy
      rcases List.mem_cons.1 hb with hb2 | hb2
      · subst hb2
        exact hxy'
      · exact @kc_nlt_trans String _ _ x y b hxy' (hy b hb2)

theorem sortStrings_sorted (l : List String) : (sortStrings l).Sorted strLeP := by
  induction l with
  | nil => simp [sortStrings]
  | cons x t ih =>
    simpa [sortStrings] using strInsertSorted_sorted x _ ih

/-- Sorting is invariant under permutation of the input: the crux of
order-independent schema naming. -/
theorem sortStrings_eq_of_perm {l₁ l₂ : List String} (h : l₁.Perm l₂) :
    sortStrings l₁ = sortStrings l₂ := by
  have anti : IsAntisymm String strLeP := ⟨fun a b h1 h2 => kc_eq_of_nlt h2 h1⟩
  exact @List.eq_of_perm_of_sorted String strLeP anti _ _
    (((sortStrings_perm l₁).trans h).trans (sortStrings_perm l₂).symm)
    (sortStrings_sorted l₁) (sortStrings_sorted l₂)

/-- The model's `hash16` reproduces the checksum the repository's own test
suite records for the key set `{age, country, name}`. -/
theorem hash16_test_vector : hash16 "agecountryname" = "fd4b3d4f5cce2e6d" := by
  rfl

/-! ## C1: the first example fixes the media schema only when titled -/

/-- C1 (counterexample): on a fresh `Media`, adding example `A = 5` and then
`B = "x"` leaves the schema equal to `buildSchema B`, not `buildSchema A`:
the guard in `AddExample` re-assigns the schema whenever the *stored*
schema's title is empty, and `buildSchema 5` is untitled. -/
theorem c1_counterexample :
    ¬ ((((({} : Media).addExample [] "" (.vint 5)).addExample [] "" (.vstr "x"))).schema
        = buildSchema [] (.vint 5)) := by
  intro h
  have h2 : ("string" : String) = "integer" := congrArg Schema.type h
  exact absurd h2 (by decide)

/-- C1 (amended): for a fresh media (empty stored title), two successive
`AddExample` calls with values `A` then `B` leave the schema equal to
`buildSchema A` regardless of `B`'s shape — provided the schema synthesized
from `A` carries a non-empty title (as object schemas from structs and
non-empty maps do).  When `buildSchema A` is untitled, later calls keep
overwriting the schema. -/
theorem c1_amended_theorem (reg : NameRegistry) (m : Media) (n₁ n₂ : String)
    (A B : GoVal) (hm : m.schema.title = "")
    (hA : (buildSchema reg A).title ≠ "") :
    ((m.addExample reg n₁ A).addExample reg n₂ B).schema = buildSchema reg A := by
  unfold Media.addExample
  simp [hm, hA]

/-- C1 (witness): a non-empty map example has a non-empty (digest) title, so
the schema set by the first call survives a second call with an int. -/
theorem c1_witness :
    (buildSchema [] (.vmap [("a", .vint 1)])).title ≠ "" ∧
    ((({} : Media).addExample [] "" (.vmap [("a", .vint 1)])).addExample [] "" (.vint 2)).schema
      = buildSchema [] (.vmap [("a", .vint 1)]) :=
  ⟨by decide, c1_amended_theorem [] {} "" "" _ _ rfl (by decide)⟩

/-! ## C4: content-derived schema names -/

/-- C4 (counterexample): the maps `{"ab": 1}` and `{"a": 1, "b": 2}` have
different property-name sets, yet receive the same derived title: the
sorted concatenations are both `"ab"`, so the digests agree.  This refutes
the "only if" direction of the claim. -/
theorem c4_counterexample :
    (buildSchema [] (.vmap [("ab", .vint 1)])).title
      = (buildSchema [] (.vmap [("a", .vint 1), ("b", .vint 2)])).title
    ∧ ¬ (["ab"] : List String).Perm ["a", "b"] :=
  ⟨by decide, by decide⟩

/-- C4 (amended): two map values receive the same derived title *whenever*
their top-level property names agree up to permutation (map insertion order
is irrelevant): the title is the hex digest of the sorted, concatenated
property names, or a registered override for that digest.  The converse
fails: distinct name sets whose sorted concatenations coincide (or whose
digests collide) share a title. -/
theorem c4_amended_theorem (reg : NameRegistry) (l₁ l₂ : List (String × GoVal))
    (h : (l₁.map Prod.fst).Perm (l₂.map Prod.fst)) :
    (buildSchema reg (.vmap l₁)).title = (buildSchema reg (.vmap l₂)).title := by
  cases l₁ with
  | nil =>
    have h2 : l₂.map Prod.fst = [] := h.symm.eq_nil
    have h3 : l₂ = [] := List.map_eq_nil.1 h2
    subst h3
    rfl
  | cons a t =>
    cases l₂ with
    | nil =>
      exact absurd h.eq_nil (by simp)
    | cons b u =>
      show GetSchemaName reg ((a :: t).map Prod.fst)
        = GetSchemaName reg ((b :: u).map Prod.fst)
      unfold GetSchemaName
      rw [sortStrings_eq_of_perm h]

/-- C4 (witness): the maps `{"b": 1, "a": 2}` and `{"a": 9, "b": 0}` have
permuted key lists and get the same title. -/
theorem c4_witness :
    ((["b", "a"] : List String).Perm ["a", "b"]) ∧
    (buildSchema [] (.vmap [("b", .vint 1), ("a", .vint 2)])).title
      = (buildSchema [] (.vmap [("a", .vint 9), ("b", .vint 0)])).title :=
  ⟨by decide, c4_amended_theorem [] [("b", .vint 1), ("a", .vint 2)]
    [("a", .vint 9), ("b", .vint 0)] (by decide)⟩

/-! ## C5: path-parameter seeding at route creation -/

/-- C5 (counterexample): the path parameter seeded by the first `GetRoute`
for `/x/{id}/{name}` has an *empty* description, not the
`"err: not found in path"` marker the claim asserts (`GetRoute` constructs
the seeded `Param` without setting `Desc`). -/
theorem c5_counterexample :
    ((alGet ((((New "" "" "").getRoute "/x/{id}/{name}" "get").2).params.getD [])
        "path|id").map Param.desc) = some ""
    ∧ "" ≠ "err: not found in path" :=
  ⟨rfl, by decide⟩

/-- C5 (amended): for route path `/x/{id}/{name}`, a freshly created route
(first `GetRoute` for that path and method) has exactly two seeded path
parameters, named `id` and `name` with location `path`, both with an empty
description and no examples.  The `"err: not found in path"` marker is
written only by `AddParam`, for a path-location parameter whose key was not
already present. -/
theorem c5_amended_theorem (o : OpenAPI)
    (h : alGet o.paths "/x/{id}/{name}|get" = none) :
    ((o.getRoute "/x/{id}/{name}" "get").2).params =
      some [("path|id", { name := "id", inLoc := "path" }),
            ("path|name", { name := "name", inLoc := "path" })] := by
  simp only [OpenAPI.getRoute, show asciiLower "get" = "get" from rfl]
  rw [show ("/x/{id}/{name}" ++ "|" ++ "get" : String) = "/x/{id}/{name}|get" from rfl, h]
  rfl

/-- C5 (witness): instantiated on the empty document. -/
theorem c5_witness :
    alGet (New "t" "v" "d").paths "/x/{id}/{name}|get" = none ∧
    (((New "t" "v" "d").getRoute "/x/{id}/{name}" "get").2).params =
      some [("path|id", { name := "id", inLoc := "path" }),
            ("path|name", { name := "name", inLoc := "path" })] :=
  ⟨rfl, c5_amended_theorem (New "t" "v" "d") rfl⟩

/-! ## C8: AddParam on a nil pointer -/

/-- C8 (counterexample): at the explicit input `(*int)(nil)` the call does
not complete: `reflect.Value.Elem` on the nil pointer yields the zero
`Value`, whose `Interface` call panics, contradicting the claim that nil
pointers are skipped without error or panic. -/
theorem c8_counterexample :
    Route.addParamGo [] {} "query" "p" (.vptr .tint none) "" =
      .error panicInterfaceZero := rfl

/-- C8 (amended): for every route, location and name, `AddParam` with a nil
pointer value panics (modelled as an error): the single dereference yields
an invalid reflect value and the subsequent `Interface()` call panics, so
no example is added and the parameter map is left unchanged (the assignment
at the end of `AddParam` is never reached). -/
theorem c8_amended_theorem (reg : NameRegistry) (r : Route)
    (pType name : String) (ty : GoTy) (desc : String) :
    r.addParamGo reg pType name (.vptr ty none) desc = .error panicInterfaceZero := rfl

/-! ## C9: example-name collision handling in AddExample -/

/-- C9 (counterexample): adding examples named `"x 2"`, `"x"`, `"x"` leaves
only two entries after three calls: the third call collides on `"x"`, the
appended counter produces `"x 2"`, and that key already exists, so the
first example is overwritten. -/
theorem c9_counterexample :
    ((((({} : Media).addExample [] "x 2" (.vint 1)).addExample [] "x" (.vint 2)).addExample
        [] "x" (.vint 3)).examples.length = 2)
    ∧ (2 : Nat) ≠ 3
    ∧ (Option.map Example.value
        (alGet ((((({} : Media).addExample [] "x 2" (.vint 1)).addExample [] "x"
            (.vint 2)).addExample [] "x" (.vint 3)).examples) "x 2")
        = some (.vint 3)) :=
  ⟨rfl, by decide, rfl⟩

/-- C9 (amended): `AddExample` resolves an empty name to `"Example"` and, on
a key collision, appends the current map size; the resulting entry count
grows by one — and in particular nothing is overwritten — provided the
collision-resolved key is itself absent.  (When the appended key already
exists, as in the counterexample, the existing entry is overwritten.) -/
theorem c9_amended_theorem (reg : NameRegistry) (m : Media) (name : String) (i : GoVal)
    (h : alGet m.examples
        ((if name = "" then "Example" else name) ++ " " ++ natRepr m.examples.length)
      = none) :
    (m.addExample reg name i).examples.length = m.examples.length + 1 := by
  unfold Media.addExample
  cases hget : alGet m.examples (if name = "" then "Example" else name) with
  | some v =>
    by_cases ht : m.schema.title = ""
    · simp only [ht, if_true, hget, Option.isSome_some]
      exact alInsert_length_of_get_none _ _ _ h
    · simp only [ht, if_false, hget, Option.isSome_some]
      exact alInsert_length_of_get_none _ _ _ h
  | none =>
    by_cases ht : m.schema.title = ""
    · simp only [ht, if_true, hget, Option.isSome_none, Bool.false_eq_true, if_false]
      exact alInsert_length_of_get_none _ _ _ hget
    · simp only [ht, if_false, hget, Option.isSome_none, Bool.false_eq_true]
      exact alInsert_length_of_get_none _ _ _ hget

/-- C9 (witness): adding a single example named `"n"` to a fresh media. -/
theorem c9_witness :
    (alGet (({} : Media).examples) ("n" ++ " " ++ natRepr 0) = none) ∧
    ((({} : Media).addExample [] "n" (.vint 7)).examples.length = 0 + 1) := by
  refine ⟨rfl, ?_⟩
  have := c9_amended_theorem [] {} "n" (.vint 7) (by rfl)
  simpa using this

/-! ## Compiler lemmas (used by C2 and C7) -/

theorem compileContent_post (isReq : Bool) (m p : String)
    (st : List (String × Schema)) (l : List (String × Media)) :
    ∀ kc ∈ (compileContent isReq m p st l).1, mediaCompiled kc := by
  induction l generalizing st with
  | nil =>
    intro kc h
    simp [compileContent] at h
  | cons hd rest ih =>
    obtain ⟨k, c⟩ := hd
    intro kc hkc
    by_cases h1 : k = "invalid/json"
    · simp only [compileContent, h1, if_true] at hkc
      rcases List.mem_cons.1 hkc with h | h
      · subst h
        exact Or.inl rfl
      · exact ih st kc h
    · by_cases h2 : c.schema.type = "object"
      · have h2' : ¬ c.schema.type ≠ "object" := by simpa using h2
        simp only [compileContent, h1, if_false] at hkc
        rw [if_neg h2'] at hkc
        rcases List.mem_cons.1 hkc with h | h
        · subst h
          right
          simp [Schema.refTo, Schema.type]
        · exact ih _ kc h
      · have h2' : c.schema.type ≠ "object" := h2
        simp only [compileContent, h1, if_false] at hkc
        rw [if_pos h2'] at hkc
        rcases List.mem_cons.1 hkc with h | h
        · subst h
          exact Or.inr h2
        · exact ih st kc h

theorem compileContent_fixpoint (isReq : Bool) (m p : String)
    (st : List (String × Schema)) (l : List (String × Media))
    (h : ∀ kc ∈ l, mediaCompiled kc) :
    (compileContent isReq m p st l).1 = l ∧ (compileContent isReq m p st l).2.1 = st := by
  induction l generalizing st with
  | nil => simp [compileContent]
  | cons hd rest ih =>
    obtain ⟨k, c⟩ := hd
    have hhd := h (k, c) (List.mem_cons_self _ _)
    have hrest : ∀ kc ∈ rest, mediaCompiled kc :=
      fun kc hkc => h kc (List.mem_cons_of_mem _ hkc)
    by_cases h1 : k = "invalid/json"
    · have hr := ih st hrest
      simp [compileContent, h1, hr.1, hr.2]
    · rcases hhd with h2 | h2
      · exact absurd h2 h1
      · have hr := ih st hrest
        have h2' : c.schema.type ≠ "object" := h2
        simp [compileContent, h1, h2', hr.1, hr.2]

theorem compileResponses_post (m p : String) (st : List (String × Schema))
    (rs : List (Int × Response)) :
    ∀ cr ∈ (compileResponses m p st rs).1, ∀ kc ∈ cr.2.content, mediaCompiled kc := by
  induction rs generalizing st with
  | nil =>
    intro cr h
    simp [compileResponses] at h
  | cons hd rest ih =>
    obtain ⟨code, resp⟩ := hd
    intro cr hcr
    simp only [compileResponses] at hcr
    rcases List.mem_cons.1 hcr with h | h
    · subst h
      intro kc hkc
      exact compileContent_post false m p st resp.content kc hkc
    · exact ih _ cr h

theorem compileResponses_fixpoint (m p : String) (st : List (String × Schema))
    (rs : List (Int × Response))
    (h : ∀ cr ∈ rs, ∀ kc ∈ cr.2.content, mediaCompiled kc) :
    (compileResponses m p st rs).1 = rs ∧ (compileResponses m p st rs).2.1 = st := by
  induction rs generalizing st with
  | nil => simp [compileResponses]
  | cons hd rest ih =>
    obtain ⟨code, resp⟩ := hd
    have hhd := h (code, resp) (List.mem_cons_self _ _)
    have hrest : ∀ cr ∈ rest, ∀ kc ∈ cr.2.content, mediaCompiled kc :=
      fun cr hcr => h cr (List.mem_cons_of_mem _ hcr)
    have hc := compileContent_fixpoint false m p st resp.content hhd
    have hr := ih st hrest
    rw [compileResponses]
    refine ⟨?_, ?_⟩
    · simp only [hc.1, hc.2, hr.1]
    · simp only [hc.2, hr.2]

theorem compileRoute_post (st : List (String × Schema)) (r : Route) :
    routeCompiled (compileRoute st r).1 := by
  constructor
  · intro rb hrb kc hkc
    cases hreq : r.requests with
    | none =>
      simp only [compileRoute, hreq] at hrb
      exact absurd hrb (by simp)
    | some rb0 =>
      simp only [compileRoute, hreq] at hrb
      have : rb = { rb0 with content := (compileContent true r.method r.path st rb0.content).1 } := by
        exact (Option.some.injEq _ _ ▸ hrb).symm
      subst this
      exact compileContent_post true r.method r.path st rb0.content kc hkc
  · intro cr hcr kc hkc
    cases hreq : r.requests with
    | none =>
      simp only [compileRoute, hreq] at hcr
      exact compileResponses_post _ _ _ _ cr hcr kc hkc
    | some rb0 =>
      simp only [compileRoute, hreq] at hcr
      exact compileResponses_post _ _ _ _ cr hcr kc hkc

theorem compileRoute_fixpoint (st : List (String × Schema)) (r : Route)
    (h : routeCompiled r) :
    (compileRoute st r).1 = r ∧ (compileRoute st r).2.1 = st := by
  obtain ⟨hreqs, hresps⟩ := h
  cases hreq : r.requests with
  | none =>
    have hr := compileResponses_fixpoint r.method r.path st r.responses hresps
    refine ⟨?_, ?_⟩
    · simp only [compileRoute, hreq, hr.1]
      show ({ r with requests := none, responses := r.responses } : Route) = r
      rw [← hreq]
    · simp only [compileRoute, hreq, hr.2]
  | some rb =>
    have hc := compileContent_fixpoint true r.method r.path st rb.content (hreqs rb hreq)
    have hr := compileResponses_fixpoint r.method r.path st r.responses hresps
    refine ⟨?_, ?_⟩
    · simp only [compileRoute, hreq, hc.1, hc.2, hr.1]
      show ({ r with requests := some rb, responses := r.responses } : Route) = r
      rw [← hreq]
    · simp only [compileRoute, hreq, hc.2, hr.2]

theorem compilePaths_post (st : List (String × Schema)) (ps : Router) :
    ∀ kr ∈ (compilePaths st ps).1, routeCompiled kr.2 := by
  induction ps generalizing st with
  | nil =>
    intro kr h
    simp [compilePaths] at h
  | cons hd rest ih =>
    obtain ⟨k, r⟩ := hd
    intro kr hkr
    simp only [compilePaths] at hkr
    rcases List.mem_cons.1 hkr with h | h
    · subst h
      exact compileRoute_post st r
    · exact ih _ kr h

theorem compilePaths_fixpoint (st : List (String × Schema)) (ps : Router)
    (h : ∀ kr ∈ ps, routeCompiled kr.2) :
    (compilePaths st ps).1 = ps ∧ (compilePaths st ps).2.1 = st := by
  induction ps generalizing st with
  | nil => simp [compilePaths]
  | cons hd rest ih =>
    obtain ⟨k, r⟩ := hd
    have hhd := h (k, r) (List.mem_cons_self _ _)
    have hrest : ∀ kr ∈ rest, routeCompiled kr.2 :=
      fun kr hkr => h kr (List.mem_cons_of_mem _ hkr)
    have hr := compileRoute_fixpoint st r hhd
    have ht := ih st hrest
    rw [compilePaths]
    refine ⟨?_, ?_⟩
    · simp only [hr.1, hr.2, ht.1]
    · simp only [hr.2, ht.2]

/-! ## C2: Compile is idempotent on the document -/

/-- C2: `Compile` is idempotent: a second run on the already-compiled
document leaves it unchanged — schemas already rewritten to `$ref` have an
empty `Type` and are skipped, entries under the invalid-JSON key are
skipped, and `components.schemas` gains no new or duplicate entries. -/
theorem c2_theorem (o : OpenAPI) : ((o.compile).1.compile).1 = (o.compile).1 := by
  unfold OpenAPI.compile
  have hpost := compilePaths_post o.components.schemas o.paths
  have hfix := compilePaths_fixpoint
    (compilePaths o.components.schemas o.paths).2.1
    (compilePaths o.components.schemas o.paths).1 hpost
  simp only [hfix.1, hfix.2]

/-! ## C7: Compile reports every defect, never stopping early -/

theorem compileContent_errs (isReq : Bool) (m p : String)
    (st : List (String × Schema)) (l : List (String × Media)) :
    (compileContent isReq m p st l).2.2 = l.filterMap fun kc =>
      if kc.1 = "invalid/json" then
        some (if isReq then CompileErr.invalidReq m p (rawInvalid kc.2)
              else CompileErr.invalidResp m p (rawInvalid kc.2))
      else none := by
  induction l generalizing st with
  | nil => simp [compileContent]
  | cons hd rest ih =>
    obtain ⟨k, c⟩ := hd
    by_cases h1 : k = "invalid/json"
    · simp [compileContent, h1, ih]
    · by_cases h2 : c.schema.type = "object"
      · have h2' : ¬ c.schema.type ≠ "object" := by simpa using h2
        simp [compileContent, h1, h2', ih]
      · have h2' : c.schema.type ≠ "object" := h2
        simp [compileContent, h1, h2', ih]

theorem compileResponses_errs (m p : String) (st : List (String × Schema))
    (rs : List (Int × Response)) :
    (compileResponses m p st rs).2.2 =
      (rs.map fun cr => cr.2.content.filterMap fun kc =>
        if kc.1 = "invalid/json"
        then some (CompileErr.invalidResp m p (rawInvalid kc.2)) else none).flatten := by
  induction rs generalizing st with
  | nil => simp [compileResponses]
  | cons hd rest ih =>
    obtain ⟨code, resp⟩ := hd
    simp only [compileResponses, List.map_cons, List.flatten_cons]
    rw [compileContent_errs, ih]
    simp

theorem compileRoute_errs (st : List (String × Schema)) (r : Route) :
    (compileRoute st r).2.2 = routeDefects r := by
  cases hreq : r.requests with
  | none =>
    rw [compileRoute, routeDefects]
    simp only [hreq]
    rw [compileResponses_errs]
  | some rb =>
    rw [compileRoute, routeDefects]
    simp only [hreq]
    rw [compileContent_errs, compileResponses_errs]
    simp

theorem compilePaths_errs (st : List (String × Schema)) (ps : Router) :
    (compilePaths st ps).2.2 = (ps.map fun kr => routeDefects kr.2).flatten := by
  induction ps generalizing st with
  | nil => simp [compilePaths]
  | cons hd rest ih =>
    obtain ⟨k, r⟩ := hd
    simp only [compilePaths, List.map_cons, List.flatten_cons]
    rw [compileRoute_errs, ih]

/-- C7: `Compile` never stops early: the error value it returns aggregates
exactly the document's defects — every request/response content entry
stored under the invalid-JSON content type, attributed to method and path
with the offending raw text, and every parameter whose description carries
an `"err:"` marker, attributed to location and name — and is empty exactly
when no defect exists. -/
theorem c7_theorem (o : OpenAPI) : (o.compile).2 = documentDefects o := by
  unfold OpenAPI.compile documentDefects
  exact compilePaths_errs o.components.schemas o.paths

/-! ## C3: cross-route schema deduplication -/

/-- C3: for a document with two routes whose response media hold the same
object schema `s` (same title), compiling yields exactly one entry for the
title in `components.schemas` holding the full definition, and both routes'
media schemas become pure references with no inline properties or items. -/
theorem c3_theorem (o : OpenAPI) (k1 k2 : String) (r1 r2 : Route)
    (c1 c2 : Int) (resp1 resp2 : Response) (med1 med2 : Media) (s : Schema)
    (hpaths : o.paths = [(k1, r1), (k2, r2)])
    (hcomp : o.components.schemas = [])
    (hr1q : r1.requests = none) (hr2q : r2.requests = none)
    (hr1 : r1.responses = [(c1, resp1)]) (hr2 : r2.responses = [(c2, resp2)])
    (hc1 : resp1.content = [(Json, med1)]) (hc2 : resp2.content = [(Json, med2)])
    (hm1 : med1.schema = s) (hm2 : med2.schema = s)
    (hobj : s.type = "object") :
    ((o.compile).1.components.schemas = [(s.title, s)]) ∧
    ((o.compile).1.paths =
      [(k1, { r1 with responses := [(c1, { resp1 with content :=
                [(Json, { med1 with schema := Schema.refTo s.title })] })] }),
       (k2, { r2 with responses := [(c2, { resp2 with content :=
                [(Json, { med2 with schema := Schema.refTo s.title })] })] })]) ∧
    (Schema.refTo s.title).properties = [] ∧
    (Schema.refTo s.title).items = none ∧
    (Schema.refTo s.title).ref = "#/components/schemas/" ++ s.title := by
  unfold OpenAPI.compile
  simp only [hpaths, hcomp]
  refine ⟨?_, ?_, rfl, rfl, rfl⟩
  · simp [compilePaths, compileRoute, compileResponses, compileContent,
      hr1q, hr2q, hr1, hr2, hc1, hc2, hm1, hm2, hobj, Json,
      alGet, alInsert]
  · simp [compilePaths, compileRoute, compileResponses, compileContent,
      hr1q, hr2q, hr1, hr2, hc1, hc2, hm1, hm2, hobj, Json,
      alGet, alInsert]

/-- C3 (witness): two concrete routes sharing the object schema `T`. -/
theorem c3_witness :
    (({ version := "3.0.3",
        paths := [("a|get", { path := "a", method := "get",
                              responses := [(200, { status := 200, content :=
                                [(Json, { schema := Schema.mk "T" "object" "" none ""
                                            [("a", Schema.ofType "integer")] })] })] }),
          ("b|get", { path := "b", method := "get",
                      responses := [(400, { status := 400, content :=
                        [(Json, { schema := Schema.mk "T" "object" "" none ""
                                    [("a", Schema.ofType "integer")] })] })] })] } :
      OpenAPI).compile).1.components.schemas
      = [("T", Schema.mk "T" "object" "" none "" [("a", Schema.ofType "integer")])] := by
  have h := c3_theorem
    { version := "3.0.3",
      paths := [("a|get", { path := "a", method := "get",
                            responses := [(200, { status := 200, content :=
                              [(Json, { schema := Schema.mk "T" "object" "" none ""
                                          [("a", Schema.ofType "integer")] })] })] }),
        ("b|get", { path := "b", method := "get",
                    responses := [(400, { status := 400, content :=
                      [(Json, { schema := Schema.mk "T" "object" "" none ""
                                  [("a", Schema.ofType "integer")] })] })] })] }
    "a|get" "b|get" _ _ 200 400 _ _ _ _
    (Schema.mk "T" "object" "" none "" [("a", Schema.ofType "integer")])
    rfl rfl rfl rfl rfl rfl rfl rfl rfl rfl rfl
  exact h.1

/-! ## C10: AddParam on a slice of Example values -/

theorem addParamSliceStep_fold (exs : List (String × String × GoVal))
    (p : Param) (e0 : GoVal) :
    (exs.map fun e => GoVal.vexample e.1 e.2.1 e.2.2).foldl addParamSliceStep (p, e0)
      = ({ p with examples := exs.foldl (fun m e =>
            alInsert m (if e.1 ≠ "" then e.1 else goFmt (.vexample e.1 e.2.1 e.2.2))
              { value := e.2.2 }) p.examples },
         match exs.getLast? with
         | some e => e.2.2
         | none => e0) := by
  induction exs generalizing p e0 with
  | nil => simp [List.foldl]
  | cons e rest ih =>
    simp only [List.map_cons, List.foldl_cons]
    rw [show addParamSliceStep (p, e0) (GoVal.vexample e.1 e.2.1 e.2.2)
        = ({ p with examples := alInsert p.examples
                      (if e.1 ≠ "" then e.1 else goFmt (.vexample e.1 e.2.1 e.2.2))
                      { value := e.2.2 } }, e.2.2) from rfl]
    rw [ih]
    cases rest with
    | nil => simp
    | cons e2 rest2 => simp [List.getLast?]

/-- The slice branch of the typeswitch on a non-empty list of `Example`
values: accepted as primitive, examples unwrapped, schema from the last
wrapped value (when the parameter had no schema yet). -/
theorem addParamSwitch_example_slice (reg : NameRegistry) (p : Param)
    (hsch : p.schema = none) (exs : List (String × String × GoVal)) (hne : exs ≠ []) :
    addParamSwitch reg p (.vslice .tExample (exs.map fun e => .vexample e.1 e.2.1 e.2.2))
      = .ok { p with
              schema := some (buildSchema reg (exs.getLast hne).2.2),
              examples := exs.foldl (fun m e =>
                alInsert m (if e.1 ≠ "" then e.1 else goFmt (.vexample e.1 e.2.1 e.2.2))
                  { value := e.2.2 }) p.examples } := by
  simp only [addParamSwitch]
  rw [show (!isPrimitive (zeroVal .tExample)) = false from rfl]
  simp only [Bool.false_eq_true, if_false]
  rw [addParamSliceStep_fold]
  rw [List.getLast?_eq_getLast _ hne]
  simp only [hsch, Option.isNone_none, if_true]
  rfl

/-- C10: `AddParam` with a slice of `openapi.Example` values is not
rejected as non-primitive — `isPrimitive` accepts the `Example` struct
alone among struct kinds — each element is stored as an example keyed by
its summary when non-empty (otherwise by its formatted value) with the
wrapped value as the example value, and the parameter\'s schema is derived
from the last element\'s wrapped value rather than from the `Example`
struct itself. -/
theorem c10_theorem (reg : NameRegistry) (r : Route) (ps : List (String × Param))
    (pType name desc : String) (exs : List (String × String × GoVal))
    (hps : r.params = some ps)
    (hget : alGet ps (pType ++ "|" ++ name) = none)
    (hpath : pType ≠ "path")
    (hne : exs ≠ []) :
    isPrimitive (zeroVal .tExample) = true ∧
    (∀ n fs, isPrimitive (.vstruct n fs) = false) ∧
    isPrimitive .vtime = false ∧
    (∀ f, isPrimitive (.vcustomTime f) = false) ∧
    r.addParamGo reg pType name
        (.vslice .tExample (exs.map fun e => .vexample e.1 e.2.1 e.2.2)) desc
      = .ok { r with params := some (alInsert ps (pType ++ "|" ++ name)
          { inLoc := pType, name := name, desc := desc,
            schema := some (buildSchema reg (exs.getLast hne).2.2),
            examples := exs.foldl (fun m e =>
              alInsert m (if e.1 ≠ "" then e.1 else goFmt (.vexample e.1 e.2.1 e.2.2))
                { value := e.2.2 }) [] }) } := by
  refine ⟨rfl, fun n fs => rfl, rfl, fun f => rfl, ?_⟩
  unfold Route.addParamGo
  simp only [hps, hget]
  rw [if_neg hpath]
  rw [addParamSwitch_example_slice reg _ rfl exs hne]

/-- C10 (witness): the `aid`/`bid`/`xid` example slice from the
repository\'s own test suite. -/
theorem c10_witness :
    (({ params := some [] } : Route).params = some ([] : List (String × Param))) ∧
    (alGet ([] : List (String × Param)) "query|id" = none) ∧
    Route.addParamGo [] { params := some [] } "query" "id"
        (.vslice .tExample ([(("aid", "", GoVal.vint 1234) : String × String × GoVal),
          ("bid", "", .vint 4444), ("xid", "", .vint 9944)].map
            fun e => .vexample e.1 e.2.1 e.2.2)) ""
      = .ok { params := some (alInsert [] "query|id"
          { inLoc := "query", name := "id", desc := "",
            schema := some (buildSchema []
              (([(("aid", "", GoVal.vint 1234) : String × String × GoVal),
                 ("bid", "", .vint 4444), ("xid", "", .vint 9944)].getLast
                    (List.cons_ne_nil _ _)).2.2)),
            examples := [(("aid", "", GoVal.vint 1234) : String × String × GoVal),
                ("bid", "", .vint 4444), ("xid", "", .vint 9944)].foldl (fun m e =>
              alInsert m (if e.1 ≠ "" then e.1 else goFmt (.vexample e.1 e.2.1 e.2.2))
                { value := e.2.2 }) [] }) } := by
  refine ⟨rfl, rfl, ?_⟩
  exact (c10_theorem [] { params := some [] } [] "query" "id" ""
    [("aid", "", .vint 1234), ("bid", "", .vint 4444), ("xid", "", .vint 9944)]
    rfl rfl (by decide) (List.cons_ne_nil _ _)).2.2.2.2

/-! ## C6 groundwork: ordering and insertion lemmas -/

section C6AList

variable {κ : Type} [DecidableEq κ] [KeyCmp κ] {α : Type}

theorem kc_ne_of_ltB {a b : κ} (h : KeyCmp.ltB a b = true) : a ≠ b := by
  intro he
  subst he
  rw [kc_irrefl] at h
  exact Bool.false_ne_true h

theorem sortedKeysB_pairwise : ∀ {l : List (κ × α)}, sortedKeysB l = true → sortedP l := by
  intro l
  induction l with
  | nil => intro _; exact List.Pairwise.nil
  | cons a t ih =>
    intro h
    cases t with
    | nil =>
      exact List.Pairwise.cons (fun e he => by simp at he) List.Pairwise.nil
    | cons b t2 =>
      rw [sortedKeysB, Bool.and_eq_true] at h
      have hp := ih h.2
      refine List.Pairwise.cons ?_ hp
      intro e he
      rcases List.mem_cons.1 he with rfl | he2
      · exact h.1
      · rcases hp with _ | ⟨hb, _⟩
        exact KeyCmp.ltB_trans h.1 (hb e he2)

theorem sortedP_head {a : κ × α} {t : List (κ × α)} (h : sortedP (a :: t)) :
    ∀ e ∈ t, KeyCmp.ltB a.1 e.1 = true := by
  rcases h with _ | ⟨hb, _⟩
  exact hb

theorem sortedP_tail {a : κ × α} {t : List (κ × α)} (h : sortedP (a :: t)) :
    sortedP t := by
  rcases h with _ | ⟨_, ht⟩
  exact ht

theorem mem_alInsert {k : κ} {v : α} :
    ∀ {l : List (κ × α)} {e : κ × α}, e ∈ alInsert l k v → e = (k, v) ∨ e ∈ l := by
  intro l
  induction l with
  | nil =>
    intro e he
    rw [alInsert] at he
    rcases List.mem_cons.1 he with h | h
    · exact Or.inl h
    · simp at h
  | cons a t ih =>
    intro e he
    obtain ⟨k1, v1⟩ := a
    rw [alInsert] at he
    by_cases h1 : KeyCmp.ltB k k1 = true
    · rw [if_pos h1] at he
      rcases List.mem_cons.1 he with h | h
      · exact Or.inl h
      · exact Or.inr h
    · rw [if_neg h1] at he
      by_cases h2 : k = k1
      · rw [if_pos h2] at he
        rcases List.mem_cons.1 he with h | h
        · exact Or.inl h
        · exact Or.inr (List.mem_cons_of_mem _ h)
      · rw [if_neg h2] at he
        rcases List.mem_cons.1 he with h | h
        · exact Or.inr (h ▸ List.mem_cons_self _ _)
        · rcases ih h with h3 | h3
          · exact Or.inl h3
          · exact Or.inr (List.mem_cons_of_mem _ h3)

theorem alInsert_sortedP {k : κ} {v : α} :
    ∀ {l : List (κ × α)}, sortedP l → sortedP (alInsert l k v) := by
  intro l
  induction l with
  | nil =>
    intro _
    rw [alInsert]
    exact List.Pairwise.cons (fun e he => by simp at he) List.Pairwise.nil
  | cons a t ih =>
    intro h
    obtain ⟨k1, v1⟩ := a
    rw [alInsert]
    by_cases h1 : KeyCmp.ltB k k1 = true
    · rw [if_pos h1]
      refine List.Pairwise.cons ?_ h
      intro e he
      rcases List.mem_cons.1 he with rfl | he2
      · exact h1
      · exact KeyCmp.ltB_trans h1 (sortedP_head h e he2)
    · rw [if_neg h1]
      by_cases h2 : k = k1
      · rw [if_pos h2]
        subst h2
        refine List.Pairwise.cons ?_ (sortedP_tail h)
        intro e he
        exact sortedP_head h e he
      · rw [if_neg h2]
        refine List.Pairwise.cons ?_ (ih (sortedP_tail h))
        intro e he
        rcases mem_alInsert he with rfl | he2
        · rcases KeyCmp.total_ne h2 with h3 | h3
          · exact absurd h3 h1
          · exact h3
        · exact sortedP_head h e he2

theorem alInsert_perm_none {k : κ} {v : α} :
    ∀ {l : List (κ × α)}, alGet l k = none → (alInsert l k v).Perm ((k, v) :: l) := by
  intro l
  induction l with
  | nil =>
    intro _
    rw [alInsert]
  | cons a t ih =>
    intro h
    obtain ⟨k1, v1⟩ := a
    rw [alGet] at h
    by_cases hk : k = k1
    · rw [if_pos hk] at h
      simp at h
    · rw [if_neg hk] at h
      rw [alInsert]
      by_cases h1 : KeyCmp.ltB k k1 = true
      · rw [if_pos h1]
      · rw [if_neg h1, if_neg hk]
        exact ((ih h).cons _).trans (List.Perm.swap _ _ _)

theorem alGet_mem {k : κ} {v : α} :
    ∀ {l : List (κ × α)}, alGet l k = some v → (k, v) ∈ l := by
  intro l
  induction l with
  | nil =>
    intro h
    rw [alGet] at h
    exact Option.noConfusion h
  | cons a t ih =>
    intro h
    obtain ⟨k1, v1⟩ := a
    rw [alGet] at h
    by_cases hk : k = k1
    · rw [if_pos hk] at h
      subst hk
      obtain rfl := Option.some.inj h
      exact List.mem_cons_self _ _
    · rw [if_neg hk] at h
      exact List.mem_cons_of_mem _ (ih h)

theorem alGet_eq_some_of_mem {k : κ} {v : α} :
    ∀ {l : List (κ × α)}, (l.map Prod.fst).Nodup → (k, v) ∈ l →
    alGet l k = some v := by
  intro l
  induction l with
  | nil =>
    intro _ hm
    simp at hm
  | cons a t ih =>
    intro hn hm
    obtain ⟨k1, v1⟩ := a
    rw [List.map_cons, List.nodup_cons] at hn
    rcases List.mem_cons.1 hm with he | hm2
    · obtain ⟨rfl, rfl⟩ := Prod.mk.injEq .. ▸ he
      rw [alGet, if_pos rfl]
    · by_cases hk : k = k1
      · subst hk
        exact absurd (List.mem_map.2 ⟨(k, v), hm2, rfl⟩) hn.1
      · rw [alGet, if_neg hk]
        exact ih hn.2 hm2

theorem alGet_eq_of_perm {l₁ l₂ : List (κ × α)} (hp : l₁.Perm l₂)
    (hn : (l₁.map Prod.fst).Nodup) (k : κ) : alGet l₁ k = alGet l₂ k := by
  have hn2 : (l₂.map Prod.fst).Nodup := ((hp.map Prod.fst).nodup_iff).1 hn
  cases h2 : alGet l₂ k with
  | some v => exact alGet_eq_some_of_mem hn (hp.mem_iff.2 (alGet_mem h2))
  | none =>
    cases h1 : alGet l₁ k with
    | none => rfl
    | some v =>
      have hm : (k, v) ∈ l₂ := hp.mem_iff.1 (alGet_mem h1)
      have h2' := alGet_eq_some_of_mem hn2 hm
      rw [h2'] at h2
      exact Option.noConfusion h2

theorem alInsert_append_gt {k : κ} {v : α} :
    ∀ {l : List (κ × α)}, (∀ e ∈ l, KeyCmp.ltB e.1 k = true) →
    alInsert l k v = l ++ [(k, v)] := by
  intro l
  induction l with
  | nil =>
    intro _
    rw [alInsert]
    rfl
  | cons a t ih =>
    intro h
    obtain ⟨k1, v1⟩ := a
    have h1 : KeyCmp.ltB k1 k = true := h _ (List.mem_cons_self _ _)
    have hnlt : ¬ (KeyCmp.ltB k k1 = true) := by
      intro hlt
      have h2 := KeyCmp.asymm hlt
      rw [h1] at h2
      exact absurd h2 (by decide)
    have hne : ¬ (k = k1) := by
      intro he
      subst he
      rw [kc_irrefl] at h1
      exact Bool.false_ne_true h1
    rw [alInsert, if_neg hnlt, if_neg hne,
      ih (fun e he => h e (List.mem_cons_of_mem _ he))]
    rfl

theorem foldl_alInsertKV_sorted :
    ∀ (l acc : List (κ × α)), sortedP (acc ++ l) →
    List.foldl alInsertKV acc l = acc ++ l := by
  intro l
  induction l with
  | nil =>
    intro acc _
    rw [List.foldl_nil, List.append_nil]
  | cons a t ih =>
    intro acc h
    obtain ⟨k, v⟩ := a
    rw [List.foldl_cons]
    have hgt : ∀ e ∈ acc, KeyCmp.ltB e.1 k = true := fun e he =>
      (List.pairwise_append.1 h).2.2 e he (k, v) (List.mem_cons_self _ _)
    have hstep : alInsertKV acc (k, v) = acc ++ [(k, v)] := alInsert_append_gt hgt
    rw [hstep]
    have h2 : sortedP ((acc ++ [(k, v)]) ++ t) := by
      rw [List.append_assoc, List.singleton_append]
      exact h
    rw [ih (acc ++ [(k, v)]) h2, List.append_assoc, List.singleton_append]

theorem foldl_alInsertKV_sortedP :
    ∀ (l : List (κ × α)) (acc), sortedP acc →
    sortedP (List.foldl alInsertKV acc l) := by
  intro l
  induction l with
  | nil => intro acc h; exact h
  | cons a t ih =>
    intro acc h
    rw [List.foldl_cons]
    exact ih _ (alInsert_sortedP h)

theorem alGet_foldl_alInsertKV :
    ∀ (l : List (κ × α)), (l.map Prod.fst).Nodup →
    ∀ (acc) (k : κ),
    alGet (List.foldl alInsertKV acc l) k = (alGet l k).or (alGet acc k) := by
  intro l
  induction l with
  | nil =>
    intro _ acc k
    rw [List.foldl_nil, alGet]
    rfl
  | cons a t ih =>
    intro hn acc k
    obtain ⟨k1, v1⟩ := a
    rw [List.map_cons, List.nodup_cons] at hn
    rw [List.foldl_cons, ih hn.2 (alInsertKV acc (k1, v1)) k]
    by_cases hk : k = k1
    · subst hk
      have ht : alGet t k = none := by
        cases hg : alGet t k with
        | none => rfl
        | some w => exact absurd (List.mem_map.2 ⟨(k, w), alGet_mem hg, rfl⟩) hn.1
      have hi : alGet (alInsertKV acc (k, v1)) k = some v1 :=
        alGet_insert_self acc k v1
      rw [ht, hi, alGet, if_pos rfl]
      rfl
    · have hi : alGet (alInsertKV acc (k1, v1)) k = alGet acc k :=
        alGet_insert_ne acc k1 k v1 hk
      rw [hi, alGet, if_neg hk]

theorem sortedP_alGet_head_none {k1 : κ} {v1 : α} {t : List (κ × α)}
    (h : sortedP ((k1, v1) :: t)) : alGet t k1 = none := by
  cases hg : alGet t k1 with
  | none => rfl
  | some w =>
    have hlt := sortedP_head h _ (alGet_mem hg)
    rw [kc_irrefl] at hlt
    exact absurd hlt Bool.false_ne_true

theorem sortedP_ext :
    ∀ {l₁ l₂ : List (κ × α)}, sortedP l₁ → sortedP l₂ →
    (∀ k, alGet l₁ k = alGet l₂ k) → l₁ = l₂ := by
  intro l₁
  induction l₁ with
  | nil =>
    intro l₂ _ h₂ h
    cases l₂ with
    | nil => rfl
    | cons b t2 =>
      obtain ⟨k2, v2⟩ := b
      have hx := h k2
      rw [alGet, alGet, if_pos rfl] at hx
      exact Option.noConfusion hx
  | cons a t ih =>
    intro l₂ h₁ h₂ h
    obtain ⟨k1, v1⟩ := a
    cases l₂ with
    | nil =>
      have hx := h k1
      rw [alGet, alGet, if_pos rfl] at hx
      exact Option.noConfusion hx
    | cons b t2 =>
      obtain ⟨k2, v2⟩ := b
      have hk : k1 = k2 := by
        by_contra hne
        rcases KeyCmp.total_ne hne with hlt | hlt
        · have h2n : alGet ((k2, v2) :: t2) k1 = none := by
            rw [alGet, if_neg hne]
            cases hg : alGet t2 k1 with
            | none => rfl
            | some w =>
              have hx := sortedP_head h₂ _ (alGet_mem hg)
              rw [KeyCmp.asymm hlt] at hx
              exact absurd hx Bool.false_ne_true
          have hx := h k1
          rw [alGet, if_pos rfl, h2n] at hx
          exact Option.noConfusion hx
        · have h1n : alGet ((k1, v1) :: t) k2 = none := by
            rw [alGet, if_neg (fun he => hne he.symm)]
            cases hg : alGet t k2 with
            | none => rfl
            | some w =>
              have hx := sortedP_head h₁ _ (alGet_mem hg)
              rw [KeyCmp.asymm hlt] at hx
              exact absurd hx Bool.false_ne_true
          have hx := h k2
          rw [h1n, alGet, if_pos rfl] at hx
          exact Option.noConfusion hx
      subst hk
      have hv : v1 = v2 := by
        have hx := h k1
        rw [alGet, if_pos rfl, alGet, if_pos rfl] at hx
        exact Option.some.inj hx
      subst hv
      have htails : ∀ k, alGet t k = alGet t2 k := by
        intro k
        by_cases hk : k = k1
        · subst hk
          rw [sortedP_alGet_head_none h₁, sortedP_alGet_head_none h₂]
        · have hx := h k
          rw [alGet, if_neg hk, alGet, if_neg hk] at hx
          exact hx
      rw [ih (sortedP_tail h₁) (sortedP_tail h₂) htails]

theorem sortedP_keys_nodup :
    ∀ {l : List (κ × α)}, sortedP l → (l.map Prod.fst).Nodup := by
  intro l h
  have h2 : l.Pairwise fun a b => a.1 ≠ b.1 := h.imp fun hab => kc_ne_of_ltB hab
  exact List.pairwise_map.2 h2

theorem sortedP_filter_eq_self {k : κ} {t : List (κ × α)} {a : κ × α}
    (hlt : KeyCmp.ltB k a.1 = true) (h : sortedP (a :: t)) :
    ((a :: t).filter fun e => decide (e.1 ≠ k)) = a :: t := by
  refine List.filter_eq_self.2 ?_
  intro e he
  refine decide_eq_true ?_
  rcases List.mem_cons.1 he with rfl | he2
  · exact fun h2 => kc_ne_of_ltB hlt h2.symm
  · have h3 := KeyCmp.ltB_trans hlt (sortedP_head h e he2)
    exact fun h2 => kc_ne_of_ltB h3 h2.symm

/-- Inserting into a sorted list is, up to permutation, prepending the new
binding and dropping any old binding of the same key. -/
theorem alInsert_filter_perm {k : κ} {v : α} :
    ∀ {l : List (κ × α)}, sortedP l →
    (alInsert l k v).Perm ((k, v) :: l.filter fun e => decide (e.1 ≠ k)) := by
  intro l
  induction l with
  | nil =>
    intro _
    rw [alInsert]
    exact List.Perm.refl _
  | cons a t ih =>
    intro h
    obtain ⟨k1, v1⟩ := a
    rw [alInsert]
    by_cases h1 : KeyCmp.ltB k k1 = true
    · rw [if_pos h1, sortedP_filter_eq_self h1 h]
    · rw [if_neg h1]
      by_cases h2 : k = k1
      · rw [if_pos h2]
        subst h2
        have hfilt : (((k, v1) :: t).filter fun e => decide (e.1 ≠ k)) = t := by
          rw [List.filter_cons, if_neg (by simp)]
          refine List.filter_eq_self.2 ?_
          intro e he
          refine decide_eq_true ?_
          exact fun h3 => kc_ne_of_ltB (sortedP_head h e he) h3.symm
        rw [hfilt]
      · rw [if_neg h2]
        have hfilt : (((k1, v1) :: t).filter fun e => decide (e.1 ≠ k))
            = (k1, v1) :: (t.filter fun e => decide (e.1 ≠ k)) := by
          rw [List.filter_cons,
            if_pos (by simp only [decide_eq_true_eq]; exact fun h3 => h2 h3.symm)]
        rw [hfilt]
        exact ((ih (sortedP_tail h)).cons _).trans (List.Perm.swap _ _ _)

/-- A sorted list with a binding for `k` is, up to permutation, that binding
prepended to the rest. -/
theorem alGet_some_filter_perm {k : κ} {v : α} :
    ∀ {l : List (κ × α)}, sortedP l → alGet l k = some v →
    l.Perm ((k, v) :: l.filter fun e => decide (e.1 ≠ k)) := by
  intro l
  induction l with
  | nil =>
    intro _ hg
    rw [alGet] at hg
    exact Option.noConfusion hg
  | cons a t ih =>
    intro h hg
    obtain ⟨k1, v1⟩ := a
    rw [alGet] at hg
    by_cases hk : k = k1
    · rw [if_pos hk] at hg
      have hv := Option.some.inj hg
      rw [← hk, hv]
      have hfilt : (((k, v) :: t).filter fun e => decide (e.1 ≠ k)) = t := by
        rw [List.filter_cons, if_neg (by simp)]
        refine List.filter_eq_self.2 ?_
        intro e he
        refine decide_eq_true ?_
        have h4 := sortedP_head h e he
        rw [← hk] at h4
        exact fun h3 => kc_ne_of_ltB h4 h3.symm
      rw [hfilt]
    · rw [if_neg hk] at hg
      have hfilt : (((k1, v1) :: t).filter fun e => decide (e.1 ≠ k))
          = (k1, v1) :: (t.filter fun e => decide (e.1 ≠ k)) := by
        rw [List.filter_cons,
          if_pos (by simp only [decide_eq_true_eq]; exact fun h3 => hk h3.symm)]
      rw [hfilt]
      exact ((ih (sortedP_tail h) hg).cons _).trans (List.Perm.swap _ _ _)

end C6AList

/-! ## C6 groundwork: decimal status codes -/

theorem digitChar_isDigit {d : Nat} (h : d < 10) :
    isDigitB (Nat.digitChar d) = true := by
  interval_cases d <;> decide

theorem charDigit_digitChar {d : Nat} (h : d < 10) :
    charDigit (Nat.digitChar d) = d := by
  interval_cases d <;> decide

theorem natDigitsAux_all_digits :
    ∀ (fuel n : Nat), (natDigitsAux fuel n).all isDigitB = true := by
  intro fuel
  induction fuel with
  | zero => intro n; rfl
  | succ f ih =>
    intro n
    rw [natDigitsAux]
    by_cases h : n = 0
    · rw [if_pos h]
      rfl
    · rw [if_neg h, List.all_cons, ih (n / 10),
        digitChar_isDigit (Nat.mod_lt n (by norm_num))]
      rfl

theorem natDigitsAux_foldr :
    ∀ (fuel n : Nat), n ≤ fuel →
    (natDigitsAux fuel n).foldr (fun c acc => acc * 10 + charDigit c) 0 = n := by
  intro fuel
  induction fuel with
  | zero =>
    intro n h
    interval_cases n
    rfl
  | succ f ih =>
    intro n h
    rw [natDigitsAux]
    by_cases h0 : n = 0
    · rw [if_pos h0, List.foldr_nil]
      omega
    · rw [if_neg h0, List.foldr_cons, ih (n / 10) (by omega),
        charDigit_digitChar (Nat.mod_lt n (by norm_num))]
      omega

theorem natDigitsAux_ne_nil {n fuel : Nat} (h0 : n ≠ 0) (hf : n ≤ fuel) :
    natDigitsAux fuel n ≠ [] := by
  cases fuel with
  | zero => omega
  | succ f =>
    rw [natDigitsAux, if_neg h0]
    exact List.cons_ne_nil _ _

theorem parseNatChars_natDigits {n : Nat} (h0 : n ≠ 0) :
    parseNatChars (natDigitsAux (n + 1) n).reverse = .ok n := by
  have hfold := natDigitsAux_foldr (n + 1) n (Nat.le_succ n)
  have hall := natDigitsAux_all_digits (n + 1) n
  cases hl : natDigitsAux (n + 1) n with
  | nil => exact absurd hl (natDigitsAux_ne_nil h0 (Nat.le_succ n))
  | cons c cs =>
    rw [hl] at hfold hall
    rw [parseNatChars]
    have hallr : ((c :: cs).reverse.all isDigitB) = true := by
      rw [List.all_reverse]
      exact hall
    have hre : ((c :: cs).reverse.isEmpty) = false := by
      cases hr : (c :: cs).reverse with
      | nil => exact absurd (List.reverse_eq_nil_iff.1 hr) (List.cons_ne_nil _ _)
      | cons d ds => rfl
    rw [if_neg (by rw [hre, hallr]; decide)]
    refine congrArg Except.ok ?_
    rw [List.foldl_reverse]
    exact hfold

theorem natRepr_all_digits {n : Nat} (h0 : n ≠ 0) :
    (natRepr n).data.all isDigitB = true := by
  rw [natRepr, if_neg h0]
  show (natDigitsAux (n + 1) n).reverse.all isDigitB = true
  rw [List.all_reverse]
  exact natDigitsAux_all_digits _ _

/-- `Code.UnmarshalText` inverts `Code.MarshalText`. -/
theorem codeParse_codeText (c : Int) : codeParse (codeText c) = .ok c := by
  by_cases h0 : c = 0
  · subst h0
    rfl
  · rw [codeText, if_neg h0, intRepr]
    have habs : c.natAbs ≠ 0 := by omega
    by_cases hneg : c < 0
    · rw [if_pos hneg, natRepr, if_neg habs]
      have hdata : ("-" ++ String.mk (natDigitsAux (c.natAbs + 1) c.natAbs).reverse).data
          = '-' :: (natDigitsAux (c.natAbs + 1) c.natAbs).reverse := by
        rw [String.data_append]
        rfl
      have hne : ("-" ++ String.mk (natDigitsAux (c.natAbs + 1) c.natAbs).reverse) ≠ "default" := by
        intro he
        have h2 : '-' :: (natDigitsAux (c.natAbs + 1) c.natAbs).reverse = "default".data := by
          rw [← hdata, he]
        have h3 : '-' :: (natDigitsAux (c.natAbs + 1) c.natAbs).reverse
            = ['d', 'e', 'f', 'a', 'u', 'l', 't'] := h2
        injection h3 with h4 _
        exact absurd h4 (by decide)
      rw [codeParse, if_neg hne, hdata, codeParseChars, if_pos (by decide),
        parseNatChars_natDigits habs]
      show Except.ok (-(c.natAbs : Int)) = Except.ok c
      refine congrArg Except.ok ?_
      omega
    · rw [if_neg hneg, natRepr, if_neg habs]
      have hall := natDigitsAux_all_digits (c.natAbs + 1) c.natAbs
      cases hr : (natDigitsAux (c.natAbs + 1) c.natAbs).reverse with
      | nil =>
        exact absurd (List.reverse_eq_nil_iff.1 hr)
          (natDigitsAux_ne_nil habs (Nat.le_succ _))
      | cons d ds =>
        have hdd : isDigitB d = true := by
          have h2 : ((natDigitsAux (c.natAbs + 1) c.natAbs).reverse.all isDigitB) = true := by
            rw [List.all_reverse]
            exact hall
          rw [hr, List.all_cons, Bool.and_eq_true] at h2
          exact h2.1
        have hne : String.mk (d :: ds) ≠ "default" := by
          intro he
          have h3 : d :: ds = ['d', 'e', 'f', 'a', 'u', 'l', 't'] :=
            congrArg String.data he
          injection h3 with h4 _
          rw [h4] at hdd
          exact absurd hdd (by decide)
        rw [codeParse, if_neg hne]
        show codeParseChars (d :: ds) = Except.ok c
        rw [codeParseChars,
          if_neg (by rw [isDigitB] at hdd; intro h45; rw [h45] at hdd; simp at hdd)]
        rw [← hr, parseNatChars_natDigits habs]
        show Except.ok ((c.natAbs : Nat) : Int) = Except.ok c
        refine congrArg Except.ok ?_
        omega

/-! ## C6 groundwork: the route-key split -/

theorem splitOnPipe_no_pipe :
    ∀ {l : List Char}, (∀ c ∈ l, c.toNat ≠ 124) → splitOnPipe l = [l] := by
  intro l
  induction l with
  | nil => intro _; rfl
  | cons c rest ih =>
    intro h
    rw [splitOnPipe, if_neg (h c (List.mem_cons_self _ _)),
      ih (fun x hx => h x (List.mem_cons_of_mem _ hx))]

theorem splitOnPipe_append {m : List Char} :
    ∀ {p : List Char}, (∀ c ∈ p, c.toNat ≠ 124) →
    splitOnPipe (p ++ '|' :: m) = p :: splitOnPipe m := by
  intro p
  induction p with
  | nil =>
    intro _
    rw [List.nil_append, splitOnPipe, if_pos (by decide)]
  | cons c rest ih =>
    intro h
    rw [List.cons_append, splitOnPipe, if_neg (h c (List.mem_cons_self _ _)),
      ih (fun x hx => h x (List.mem_cons_of_mem _ hx))]

theorem pipeFree_forall {s : String} (h : pipeFree s = true) :
    ∀ c ∈ s.data, c.toNat ≠ 124 := by
  intro c hc
  exact of_decide_eq_true (List.all_eq_true.1 h c hc)

/-- Splitting the `path|method` key recovers path and method when neither
contains a separator. -/
theorem splitPipe_append {p m : String} (hp : pipeFree p = true)
    (hm : pipeFree m = true) : splitPipe (p ++ "|" ++ m) = (p, m) := by
  have hdata : (p ++ "|" ++ m).data = p.data ++ '|' :: m.data := by
    rw [String.data_append, String.data_append]
    show (p.data ++ ['|']) ++ m.data = p.data ++ '|' :: m.data
    rw [List.append_assoc, List.singleton_append]
  rw [splitPipe, hdata, splitOnPipe_append (pipeFree_forall hp),
    splitOnPipe_no_pipe (pipeFree_forall hm)]

/-! ## C6 groundwork: marshalled values come back -/

theorem map_self {β : Type} {l : List β} {f : β → β} (hf : ∀ e ∈ l, f e = e) :
    l.map f = l := by
  induction l with
  | nil => rfl
  | cons a t ih =>
    rw [List.map_cons, hf a (List.mem_cons_self _ _),
      ih (fun e he => hf e (List.mem_cons_of_mem _ he))]

/-- Re-inserting a sorted map's entries in stored order rebuilds it
(key-preserving transform applied entrywise). -/
theorem foldl_rebuild_map {κ : Type} [DecidableEq κ] [KeyCmp κ] {α : Type}
    {l : List (κ × α)} (hs : sortedKeysB l = true)
    {f g : κ × α → κ × α} (hfg : ∀ e ∈ l, f e = g e) (hkey : ∀ e, (g e).1 = e.1) :
    List.foldl alInsertKV [] (l.map f) = l.map g := by
  rw [List.map_congr_left hfg]
  have hsp : sortedP (l.map g) := by
    refine List.pairwise_map.2 ?_
    refine (sortedKeysB_pairwise hs).imp ?_
    intro a b hab
    rw [hkey a, hkey b]
    exact hab
  have h2 := foldl_alInsertKV_sorted (l.map g) [] (by rw [List.nil_append]; exact hsp)
  rw [h2, List.nil_append]

/-- Special case: entrywise identity. -/
theorem foldl_rebuild {κ : Type} [DecidableEq κ] [KeyCmp κ] {α : Type}
    {l : List (κ × α)} (hs : sortedKeysB l = true)
    {f : κ × α → κ × α} (hf : ∀ e ∈ l, f e = e) :
    List.foldl alInsertKV [] (l.map f) = l := by
  rw [map_self hf]
  have h2 := foldl_alInsertKV_sorted l []
    (by rw [List.nil_append]; exact sortedKeysB_pairwise hs)
  rw [h2, List.nil_append]

theorem jsonNormalListB_forall :
    ∀ {es : List GoVal}, jsonNormalListB es = true → ∀ e ∈ es, jsonNormalB e = true := by
  intro es
  induction es with
  | nil => intro _ e he; simp at he
  | cons a t ih =>
    intro h e he
    rw [jsonNormalListB, Bool.and_eq_true] at h
    rcases List.mem_cons.1 he with rfl | he2
    · exact h.1
    · exact ih h.2 e he2

theorem jsonNormalEntriesB_forall :
    ∀ {es : List (String × GoVal)}, jsonNormalEntriesB es = true →
    ∀ e ∈ es, jsonNormalB e.2 = true := by
  intro es
  induction es with
  | nil => intro _ e he; simp at he
  | cons a t ih =>
    intro h e he
    obtain ⟨k, v⟩ := a
    rw [jsonNormalEntriesB, Bool.and_eq_true] at h
    rcases List.mem_cons.1 he with rfl | he2
    · exact h.1
    · exact ih h.2 e he2

theorem parseValList_congr :
    ∀ {es : List GoVal}, (∀ e ∈ es, parseVal (serVal e) = e) →
    parseValList (serValList es) = es := by
  intro es
  induction es with
  | nil => intro _; rfl
  | cons e t ih =>
    intro h
    rw [serValList, parseValList, h e (List.mem_cons_self _ _),
      ih (fun x hx => h x (List.mem_cons_of_mem _ hx))]

theorem parseValEntries_foldl :
    ∀ (es : List (String × GoVal)) (acc : List (String × GoVal)),
    parseValEntries (serValEntries es) acc
      = List.foldl alInsertKV acc (es.map fun kv => (kv.1, parseVal (serVal kv.2))) := by
  intro es
  induction es with
  | nil => intro acc; rfl
  | cons e t ih =>
    intro acc
    obtain ⟨k, v⟩ := e
    rw [serValEntries, parseValEntries, ih, List.map_cons, List.foldl_cons]
    rfl

theorem parseVal_serVal_sized :
    ∀ (n : Nat) (v : GoVal), sizeOf v ≤ n → jsonNormalB v = true →
    parseVal (serVal v) = v := by
  intro n
  induction n using Nat.strong_induction_on with
  | _ n ih =>
    intro v hs hn
    cases v with
    | vnil => rfl
    | vbool b => rfl
    | vfloat q => rfl
    | vstr s => rfl
    | vint m => simp [jsonNormalB] at hn
    | vtime => simp [jsonNormalB] at hn
    | vcustomTime s => simp [jsonNormalB] at hn
    | vexample s d v0 => simp [jsonNormalB] at hn
    | vstruct nm fields => simp [jsonNormalB] at hn
    | vptr ty ov => simp [jsonNormalB] at hn
    | vslice ty elems =>
      cases ty with
      | tany =>
        rw [jsonNormalB] at hn
        rw [serVal, parseVal]
        refine congrArg (GoVal.vslice GoTy.tany) ?_
        refine parseValList_congr ?_
        intro e he
        have hsz : sizeOf e < sizeOf (GoVal.vslice GoTy.tany elems) := by
          have h1 := List.sizeOf_lt_of_mem he
          simp only [GoVal.vslice.sizeOf_spec]
          omega
        exact ih (sizeOf e) (by omega) e (le_refl _)
          (jsonNormalListB_forall hn e he)
      | tint => simp [jsonNormalB] at hn
      | tfloat => simp [jsonNormalB] at hn
      | tbool => simp [jsonNormalB] at hn
      | tstr => simp [jsonNormalB] at hn
      | tExample => simp [jsonNormalB] at hn
      | ttime => simp [jsonNormalB] at hn
      | tcustomTime => simp [jsonNormalB] at hn
      | tmap => simp [jsonNormalB] at hn
      | tslice t => simp [jsonNormalB] at hn
      | tptr t => simp [jsonNormalB] at hn
      | tstruct nm fs => simp [jsonNormalB] at hn
    | vmap entries =>
      rw [jsonNormalB, Bool.and_eq_true] at hn
      rw [serVal, parseVal]
      refine congrArg GoVal.vmap ?_
      rw [parseValEntries_foldl]
      refine foldl_rebuild hn.1 ?_
      intro e he
      obtain ⟨k, v0⟩ := e
      have hsz : sizeOf v0 < sizeOf (GoVal.vmap entries) := by
        have h1 := List.sizeOf_lt_of_mem he
        simp only [GoVal.vmap.sizeOf_spec, Prod.mk.sizeOf_spec] at h1 ⊢
        omega
      have hv := ih (sizeOf v0) (by omega) v0 (le_refl _)
        (jsonNormalEntriesB_forall hn.2 (k, v0) he)
      rw [hv]

theorem parseVal_serVal {v : GoVal} (h : jsonNormalB v = true) :
    parseVal (serVal v) = v :=
  parseVal_serVal_sized (sizeOf v) v (le_refl _) h

theorem parseSchemaProps_foldl :
    ∀ (ps : List (String × Schema)) (acc : List (String × Schema)),
    parseSchemaProps (serSchemaProps ps) acc
      = List.foldl alInsertKV acc (ps.map fun p => (p.1, parseSchema (serSchema p.2))) := by
  intro ps
  induction ps with
  | nil => intro acc; rfl
  | cons e t ih =>
    intro acc
    obtain ⟨k, s⟩ := e
    rw [serSchemaProps, parseSchemaProps, ih, List.map_cons, List.foldl_cons]
    rfl

theorem wfSchemaPropsB_forall :
    ∀ {ps : List (String × Schema)}, wfSchemaPropsB ps = true →
    ∀ p ∈ ps, wfSchemaB p.2 = true := by
  intro ps
  induction ps with
  | nil => intro _ p hp; simp at hp
  | cons a t ih =>
    intro h p hp
    obtain ⟨k, s⟩ := a
    rw [wfSchemaPropsB, Bool.and_eq_true] at h
    rcases List.mem_cons.1 hp with rfl | hp2
    · exact h.1
    · exact ih h.2 p hp2

theorem parseSchema_serSchema_sized :
    ∀ (n : Nat) (s : Schema), sizeOf s ≤ n → wfSchemaB s = true →
    parseSchema (serSchema s) = s := by
  intro n
  induction n using Nat.strong_induction_on with
  | _ n ih =>
    intro s hs hw
    obtain ⟨t, ty, d, items, ref, props⟩ := s
    rw [wfSchemaB, Bool.and_eq_true, Bool.and_eq_true] at hw
    have hprops : parseSchemaProps (serSchemaProps props) []
        = props := by
      rw [parseSchemaProps_foldl]
      refine foldl_rebuild hw.1.1 ?_
      intro e he
      obtain ⟨k, sc⟩ := e
      have hsz : sizeOf sc < sizeOf (Schema.mk t ty d items ref props) := by
        have h1 := List.sizeOf_lt_of_mem he
        simp only [Schema.mk.sizeOf_spec, Prod.mk.sizeOf_spec] at h1 ⊢
        omega
      have hsc := ih (sizeOf sc) (by omega) sc (le_refl _)
        (wfSchemaPropsB_forall hw.2 (k, sc) he)
      rw [hsc]
    cases items with
    | none =>
      have hred : parseSchema (serSchema (Schema.mk t ty d none ref props))
          = Schema.mk t ty d none ref (parseSchemaProps (serSchemaProps props) []) := rfl
      rw [hred, hprops]
    | some si =>
      have hsi : parseSchema (serSchema si) = si := by
        have hsz : sizeOf si < sizeOf (Schema.mk t ty d (some si) ref props) := by
          simp only [Schema.mk.sizeOf_spec, Option.some.sizeOf_spec]
          omega
        refine ih (sizeOf si) (by omega) si (le_refl _) ?_
        rw [wfSchemaItemsB] at hw
        exact hw.1.2
      obtain ⟨t2, ty2, d2, items2, ref2, props2⟩ := si
      have hred : parseSchema (serSchema
            (Schema.mk t ty d (some (Schema.mk t2 ty2 d2 items2 ref2 props2)) ref props))
          = Schema.mk t ty d
              (some (parseSchema (serSchema (Schema.mk t2 ty2 d2 items2 ref2 props2)))) ref
              (parseSchemaProps (serSchemaProps props) []) := rfl
      rw [hred, hsi, hprops]

/-- `wfSchemaB` marshalled schemas parse back unchanged. -/
theorem parseSchema_serSchema {s : Schema} (h : wfSchemaB s = true) :
    parseSchema (serSchema s) = s :=
  parseSchema_serSchema_sized (sizeOf s) s (le_refl _) h

theorem parseExample_serExample {e : Example} (h : jsonNormalB e.value = true) :
    parseExample (serExample e) = e := by
  obtain ⟨s, d, v⟩ := e
  have hred : parseExample (serExample ⟨s, d, v⟩)
      = ⟨s, d, parseVal (serVal v)⟩ := rfl
  rw [hred, parseVal_serVal h]

theorem parseExamples_foldl :
    ∀ (es : List (String × Example)) (acc : List (String × Example)),
    parseExamples (es.map fun ke => (ke.1, serExample ke.2)) acc
      = List.foldl alInsertKV acc
          (es.map fun ke => (ke.1, parseExample (serExample ke.2))) := by
  intro es
  induction es with
  | nil => intro acc; rfl
  | cons e t ih =>
    intro acc
    obtain ⟨k, ex⟩ := e
    rw [List.map_cons, parseExamples, ih, List.map_cons, List.foldl_cons]
    rfl

theorem parseExamples_roundtrip {es : List (String × Example)}
    (h : wfExamplesB es = true) :
    parseExamples (es.map fun ke => (ke.1, serExample ke.2)) [] = es := by
  rw [wfExamplesB, Bool.and_eq_true] at h
  rw [parseExamples_foldl]
  refine foldl_rebuild h.1 ?_
  intro e he
  obtain ⟨k, ex⟩ := e
  rw [parseExample_serExample (List.all_eq_true.1 h.2 (k, ex) he)]

theorem parseMedia_serMedia {m : Media} (h : wfMediaB m = true) :
    parseMedia (serMedia m) = m := by
  obtain ⟨sch, exs⟩ := m
  rw [wfMediaB, Bool.and_eq_true] at h
  have hred : parseMedia (serMedia ⟨sch, exs⟩)
      = ⟨parseSchema (serSchema sch),
         parseExamples (exs.map fun ke => (ke.1, serExample ke.2)) []⟩ := rfl
  rw [hred, parseSchema_serSchema h.1, parseExamples_roundtrip h.2]

theorem parseContentEntries_foldl :
    ∀ (cnt : List (String × Media)) (acc : List (String × Media)),
    parseContentEntries (cnt.map fun km => (km.1, serMedia km.2)) acc
      = List.foldl alInsertKV acc
          (cnt.map fun km => (km.1, parseMedia (serMedia km.2))) := by
  intro cnt
  induction cnt with
  | nil => intro acc; rfl
  | cons e t ih =>
    intro acc
    obtain ⟨k, m⟩ := e
    rw [List.map_cons, parseContentEntries, ih, List.map_cons, List.foldl_cons]
    rfl

theorem parseContent_serContent {cnt : List (String × Media)}
    (h : wfContentB cnt = true) :
    parseContent (serContent cnt) = cnt := by
  rw [wfContentB, Bool.and_eq_true] at h
  rw [serContent, parseContent, parseContentEntries_foldl]
  refine foldl_rebuild h.1 ?_
  intro e he
  obtain ⟨k, m⟩ := e
  rw [parseMedia_serMedia (List.all_eq_true.1 h.2 (k, m) he)]

theorem parseResponse_serResponse {r : Response} (h : wfContentB r.content = true) :
    parseResponse (serResponse r) = { r with status := 0 } := by
  obtain ⟨st, d, cnt⟩ := r
  have hred : parseResponse (serResponse ⟨st, d, cnt⟩)
      = ⟨0, d, parseContent (serContent cnt)⟩ := rfl
  rw [hred, parseContent_serContent h]

theorem parseResponsesEntries_foldl :
    ∀ (rs : List (Int × Response)) (acc : List (Int × Response)),
    (∀ cr ∈ rs, wfContentB cr.2.content = true) →
    parseResponsesEntries (rs.map fun cr => (codeText cr.1, serResponse cr.2)) acc
      = .ok (List.foldl alInsertKV acc
          (rs.map fun cr => (cr.1, { cr.2 with status := 0 }))) := by
  intro rs
  induction rs with
  | nil => intro acc _; rfl
  | cons a t ih =>
    intro acc h
    obtain ⟨c, r⟩ := a
    have h1 : parseResponsesEntries
        (((c, r) :: t).map fun cr => (codeText cr.1, serResponse cr.2)) acc
        = (match codeParse (codeText c) with
           | .error e => .error e
           | .ok c1 => parseResponsesEntries
               (t.map fun cr => (codeText cr.1, serResponse cr.2))
               (alInsert acc c1 (parseResponse (serResponse r)))) := rfl
    rw [h1, codeParse_codeText c]
    show parseResponsesEntries (t.map fun cr => (codeText cr.1, serResponse cr.2))
        (alInsert acc c (parseResponse (serResponse r))) = _
    rw [parseResponse_serResponse (h (c, r) (List.mem_cons_self _ _))]
    rw [ih _ (fun cr hcr => h cr (List.mem_cons_of_mem _ hcr)),
      List.map_cons, List.foldl_cons]
    rfl

theorem parseResponses_serResponses {rs : List (Int × Response)}
    (hs : sortedKeysB rs = true)
    (h : ∀ cr ∈ rs, wfContentB cr.2.content = true) :
    parseResponses (serResponses rs) = .ok (zeroStatuses rs) := by
  rw [serResponses, parseResponses, parseResponsesEntries_foldl rs [] h]
  refine congrArg Except.ok ?_
  exact foldl_rebuild_map hs (fun e he => rfl) (fun e => rfl)

theorem parseRequestBody_serRequestBody {rb : RequestBody}
    (h : wfContentB rb.content = true) :
    parseRequestBody (serRequestBody rb) = rb := by
  obtain ⟨d, cnt, req⟩ := rb
  have hred : parseRequestBody (serRequestBody ⟨d, cnt, req⟩)
      = ⟨d, parseContent (serContent cnt), req⟩ := rfl
  rw [hred, parseContent_serContent h]

theorem parseTags_map :
    ∀ (tags : List String), parseTags (tags.map JVal.jstr) = tags := by
  intro tags
  induction tags with
  | nil => rfl
  | cons a t ih => rw [List.map_cons, parseTags, ih]

/-- A marshalled route parses back with statuses zeroed, parameters
discarded, and internal fields cleared. -/
theorem parseRoute_serRoute {rt : Route} (h : wfRouteB rt = true) :
    parseRoute (serRoute rt) = .ok (stripRoute rt) := by
  obtain ⟨p, m, tg, sm, rs, ps, rq⟩ := rt
  rw [wfRouteB, Bool.and_eq_true, Bool.and_eq_true] at h
  have hresp : parseResponses (serResponses rs) = .ok (zeroStatuses rs) :=
    parseResponses_serResponses h.1.1
      (fun cr hcr => List.all_eq_true.1 h.1.2 cr hcr)
  cases rq with
  | none =>
    have h1 : parseRoute (serRoute ⟨p, m, tg, sm, rs, ps, none⟩)
        = (match parseResponses (serResponses rs) with
           | .error e => .error e
           | .ok resps =>
             Except.ok { path := "", method := "",
                         tag := parseTags (tg.map JVal.jstr),
                         summary := sm, responses := resps, params := none,
                         requests := none }) := rfl
    rw [h1, hresp]
    show Except.ok { path := "", method := "",
                     tag := parseTags (tg.map JVal.jstr),
                     summary := sm, responses := zeroStatuses rs,
                     params := none, requests := none }
      = Except.ok (stripRoute ⟨p, m, tg, sm, rs, ps, none⟩)
    rw [parseTags_map]
    rfl
  | some rb =>
    obtain ⟨d, cnt, req⟩ := rb
    have hreq : parseRequestBody (serRequestBody ⟨d, cnt, req⟩) = ⟨d, cnt, req⟩ :=
      parseRequestBody_serRequestBody h.2
    have h1 : parseRoute (serRoute ⟨p, m, tg, sm, rs, ps, some ⟨d, cnt, req⟩⟩)
        = (match parseResponses (serResponses rs) with
           | .error e => .error e
           | .ok resps =>
             Except.ok { path := "", method := "",
                         tag := parseTags (tg.map JVal.jstr),
                         summary := sm, responses := resps, params := none,
                         requests := some (parseRequestBody
                           (serRequestBody ⟨d, cnt, req⟩)) }) := rfl
    rw [h1, hresp]
    show Except.ok { path := "", method := "",
                     tag := parseTags (tg.map JVal.jstr),
                     summary := sm, responses := zeroStatuses rs,
                     params := none,
                     requests := some (parseRequestBody
                       (serRequestBody ⟨d, cnt, req⟩)) }
      = Except.ok (stripRoute ⟨p, m, tg, sm, rs, ps, some ⟨d, cnt, req⟩⟩)
    rw [parseTags_map, hreq]
    rfl

/-! ## C6: the route-table marshal/unmarshal pair -/

theorem routerUnmarshalMethods_ser (p : String) :
    ∀ (ms : List (String × Route)) (acc : Router),
    (∀ mr ∈ ms, wfRouteB mr.2 = true) →
    routerUnmarshalMethods p acc (ms.map fun mr => (mr.1, serRoute mr.2))
      = .ok (List.foldl alInsertKV acc (innerFlatT p ms)) := by
  intro ms
  induction ms with
  | nil => intro acc _; rfl
  | cons a t ih =>
    intro acc h
    obtain ⟨m, rt⟩ := a
    have h1 : routerUnmarshalMethods p acc
        (((m, rt) :: t).map fun mr => (mr.1, serRoute mr.2))
        = (match parseRoute (serRoute rt) with
           | .error e => .error e
           | .ok rt2 => routerUnmarshalMethods p
               (alInsert acc (p ++ "|" ++ m) { rt2 with path := p, method := m })
               (t.map fun mr => (mr.1, serRoute mr.2))) := rfl
    rw [h1, parseRoute_serRoute (h (m, rt) (List.mem_cons_self _ _))]
    show routerUnmarshalMethods p
        (alInsert acc (p ++ "|" ++ m) { stripRoute rt with path := p, method := m })
        (t.map fun mr => (mr.1, serRoute mr.2)) = _
    rw [ih _ (fun mr hmr => h mr (List.mem_cons_of_mem _ hmr))]
    rfl

theorem routerUnmarshalPaths_ser :
    ∀ (g : List (String × List (String × Route))) (acc : Router),
    (∀ pm ∈ g, ∀ mr ∈ pm.2, wfRouteB mr.2 = true) →
    routerUnmarshalPaths acc
      (g.map fun pm => (pm.1, JVal.jobj (pm.2.map fun mr => (mr.1, serRoute mr.2))))
      = .ok (List.foldl alInsertKV acc (flatGT g)) := by
  intro g
  induction g with
  | nil => intro acc _; rfl
  | cons a t ih =>
    intro acc h
    obtain ⟨p, ms⟩ := a
    have h1 : routerUnmarshalPaths acc (((p, ms) :: t).map fun pm =>
          (pm.1, JVal.jobj (pm.2.map fun mr => (mr.1, serRoute mr.2))))
        = (match routerUnmarshalMethods p acc
              (ms.map fun mr => (mr.1, serRoute mr.2)) with
           | .error e => .error e
           | .ok acc2 => routerUnmarshalPaths acc2 (t.map fun pm =>
               (pm.1, JVal.jobj (pm.2.map fun mr => (mr.1, serRoute mr.2))))) := rfl
    rw [h1, routerUnmarshalMethods_ser p ms acc
      (fun mr hmr => h (p, ms) (List.mem_cons_self _ _) mr hmr)]
    show routerUnmarshalPaths (List.foldl alInsertKV acc (innerFlatT p ms))
        (t.map fun pm => (pm.1, JVal.jobj (pm.2.map fun mr =>
          (mr.1, serRoute mr.2)))) = _
    rw [ih _ (fun pm hpm mr hmr => h pm (List.mem_cons_of_mem _ hpm) mr hmr)]
    refine congrArg Except.ok ?_
    rw [show flatGT ((p, ms) :: t) = innerFlatT p ms ++ flatGT t from rfl,
      List.foldl_append]

theorem mem_flatGT {g : List (String × List (String × Route))} {p m : String}
    {ms : List (String × Route)} {rt : Route}
    (hpm : (p, ms) ∈ g) (hmr : (m, rt) ∈ ms) :
    (p ++ "|" ++ m, groupTransform p m rt) ∈ flatGT g := by
  rw [flatGT, List.mem_flatten]
  refine ⟨innerFlatT p ms, List.mem_map.2 ⟨(p, ms), hpm, rfl⟩, ?_⟩
  rw [innerFlatT]
  exact List.mem_map.2 ⟨(m, rt), hmr, rfl⟩

/-- One step of the marshalling group loop, seen through the flattened
route table: it prepends exactly the route being grouped. -/
theorem routerGroupStep_flatGT {acc : List (String × List (String × Route))}
    (hso : sortedP acc) (hsi : ∀ pm ∈ acc, sortedP pm.2)
    (k : String) (rt : Route)
    (hfresh : ((splitPipe k).1 ++ "|" ++ (splitPipe k).2)
      ∉ (flatGT acc).map Prod.fst) :
    (flatGT (routerGroupStep acc (k, rt))).Perm
      (((splitPipe k).1 ++ "|" ++ (splitPipe k).2,
        groupTransform (splitPipe k).1 (splitPipe k).2 rt) :: flatGT acc) := by
  have hstep : routerGroupStep acc (k, rt)
      = alInsert acc (splitPipe k).1
          (alInsert ((alGet acc (splitPipe k).1).getD []) (splitPipe k).2 rt) := rfl
  rw [hstep]
  cases hget : alGet acc (splitPipe k).1 with
  | none =>
    have houter : (alInsert acc (splitPipe k).1
          (alInsert [] (splitPipe k).2 rt)).Perm
        (((splitPipe k).1, alInsert [] (splitPipe k).2 rt) :: acc) :=
      alInsert_perm_none hget
    exact (houter.map fun pm => innerFlatT pm.1 pm.2).flatten
  | some ms =>
    have hnone : alGet ms (splitPipe k).2 = none := by
      cases hg2 : alGet ms (splitPipe k).2 with
      | none => rfl
      | some w =>
        exact absurd (List.mem_map.2
          ⟨((splitPipe k).1 ++ "|" ++ (splitPipe k).2,
            groupTransform (splitPipe k).1 (splitPipe k).2 w),
           mem_flatGT (alGet_mem hget) (alGet_mem hg2), rfl⟩) hfresh
    have hinner : (alInsert ms (splitPipe k).2 rt).Perm
        (((splitPipe k).2, rt) :: ms) := alInsert_perm_none hnone
    have houter : (alInsert acc (splitPipe k).1
          (alInsert ((some ms).getD []) (splitPipe k).2 rt)).Perm
        (((splitPipe k).1, alInsert ((some ms).getD []) (splitPipe k).2 rt)
          :: acc.filter fun e => decide (e.1 ≠ (splitPipe k).1)) :=
      alInsert_filter_perm hso
    have hacc := alGet_some_filter_perm hso hget
    have hA := (houter.map fun pm : String × List (String × Route) =>
      innerFlatT pm.1 pm.2).flatten
    have hB : (innerFlatT (splitPipe k).1
          (alInsert ((some ms).getD []) (splitPipe k).2 rt)).Perm
        (innerFlatT (splitPipe k).1 (((splitPipe k).2, rt) :: ms)) :=
      hinner.map _
    have hC := (hacc.map fun pm : String × List (String × Route) =>
      innerFlatT pm.1 pm.2).flatten
    exact hA.trans ((hB.append_right _).trans ((hC.symm).cons _))

/-- The grouping fold, seen through the flattened table: a permutation of
the routes grouped so far (with the unmarshal transform applied). -/
theorem routerGroup_flatGT_aux :
    ∀ (entries : Router) (acc : List (String × List (String × Route))),
    sortedP acc → (∀ pm ∈ acc, sortedP pm.2) →
    (((flatGT acc).map Prod.fst
      ++ entries.map fun kr =>
        (splitPipe kr.1).1 ++ "|" ++ (splitPipe kr.1).2).Nodup) →
    (flatGT (List.foldl routerGroupStep acc entries)).Perm
      ((entries.map fun kr => ((splitPipe kr.1).1 ++ "|" ++ (splitPipe kr.1).2,
          groupTransform (splitPipe kr.1).1 (splitPipe kr.1).2 kr.2))
        ++ flatGT acc) := by
  intro entries
  induction entries with
  | nil =>
    intro acc _ _ _
    rw [List.foldl_nil, List.map_nil, List.nil_append]
  | cons a t ih =>
    intro acc hso hsi hnd
    obtain ⟨k, rt⟩ := a
    rw [List.foldl_cons]
    rw [List.map_cons] at hnd
    have hfr : ((splitPipe k).1 ++ "|" ++ (splitPipe k).2)
        ∉ (flatGT acc).map Prod.fst := by
      intro hmem
      exact (List.nodup_append.1 hnd).2.2 hmem (List.mem_cons_self _ _)
    have hstep := routerGroupStep_flatGT hso hsi k rt hfr
    have hso2 : sortedP (routerGroupStep acc (k, rt)) := alInsert_sortedP hso
    have hsi2 : ∀ pm ∈ routerGroupStep acc (k, rt), sortedP pm.2 := by
      intro pm hpm
      rcases mem_alInsert hpm with rfl | hpm2
      · show sortedP (alInsert ((alGet acc (splitPipe k).1).getD [])
          (splitPipe k).2 rt)
        cases hget : alGet acc (splitPipe k).1 with
        | none => exact alInsert_sortedP List.Pairwise.nil
        | some ms => exact alInsert_sortedP (hsi (_, ms) (alGet_mem hget))
      · exact hsi pm hpm2
    have hkeys : ((flatGT (routerGroupStep acc (k, rt))).map Prod.fst).Perm
        ((((splitPipe k).1 ++ "|" ++ (splitPipe k).2))
          :: (flatGT acc).map Prod.fst) :=
      hstep.map Prod.fst
    have hp2 : ((flatGT (routerGroupStep acc (k, rt))).map Prod.fst
          ++ t.map fun kr => (splitPipe kr.1).1 ++ "|" ++ (splitPipe kr.1).2).Perm
        ((flatGT acc).map Prod.fst
          ++ ((splitPipe k).1 ++ "|" ++ (splitPipe k).2)
            :: t.map fun kr => (splitPipe kr.1).1 ++ "|" ++ (splitPipe kr.1).2) :=
      (hkeys.append_right _).trans List.perm_middle.symm
    have hnd2 := (hp2.nodup_iff).2 hnd
    have hrec := ih (routerGroupStep acc (k, rt)) hso2 hsi2 hnd2
    refine hrec.trans ?_
    refine (List.Perm.append_left _ hstep).trans ?_
    exact List.perm_middle

theorem routerGroup_routes :
    ∀ (entries : Router) (acc : List (String × List (String × Route))),
    (∀ pm ∈ acc, ∀ mr ∈ pm.2, wfRouteB mr.2 = true) →
    (∀ kr ∈ entries, wfRouteB kr.2 = true) →
    ∀ pm ∈ List.foldl routerGroupStep acc entries, ∀ mr ∈ pm.2,
      wfRouteB mr.2 = true := by
  intro entries
  induction entries with
  | nil =>
    intro acc hacc _ pm hpm mr hmr
    exact hacc pm hpm mr hmr
  | cons a t ih =>
    intro acc hacc hent
    rw [List.foldl_cons]
    refine ih _ ?_ (fun kr hkr => hent kr (List.mem_cons_of_mem _ hkr))
    intro pm hpm mr hmr
    rcases mem_alInsert hpm with rfl | hpm2
    · rcases mem_alInsert hmr with rfl | hmr2
      · exact hent a (List.mem_cons_self _ _)
      · cases hget : alGet acc (splitPipe a.1).1 with
        | none =>
          rw [hget] at hmr2
          simp at hmr2
        | some ms =>
          rw [hget] at hmr2
          exact hacc (_, ms) (alGet_mem hget) mr hmr2
    · exact hacc pm hpm2 mr hmr

theorem groupTransform_self (rt : Route) :
    groupTransform rt.path rt.method rt = transformRoute rt := by
  obtain ⟨p, m, tg, sm, rs, ps, rq⟩ := rt
  rfl

/-- `Router.UnmarshalJSON ∘ Router.MarshalJSON` on a well-formed table:
every route comes back under its key with statuses zeroed and parameters
dropped. -/
theorem routerMarshal_roundtrip {r : Router} (h : wfRouterB r = true) :
    routerUnmarshal (routerMarshal r) = .ok (transformPaths r) := by
  rw [wfRouterB, Bool.and_eq_true] at h
  have hprops : ∀ kr ∈ r, kr.1 = kr.2.path ++ "|" ++ kr.2.method
      ∧ pipeFree kr.2.path = true ∧ pipeFree kr.2.method = true
      ∧ wfRouteB kr.2 = true := by
    intro kr hkr
    have h2 := List.all_eq_true.1 h.2 kr hkr
    simp only [Bool.and_eq_true, decide_eq_true_eq] at h2
    exact ⟨h2.1.1.1, h2.1.1.2, h2.1.2, h2.2⟩
  have hkey : ∀ kr ∈ r, ((splitPipe kr.1).1 ++ "|" ++ (splitPipe kr.1).2 = kr.1)
      ∧ groupTransform (splitPipe kr.1).1 (splitPipe kr.1).2 kr.2
          = transformRoute kr.2 := by
    intro kr hkr
    obtain ⟨heq, hp, hm, _⟩ := hprops kr hkr
    have hsp : splitPipe kr.1 = (kr.2.path, kr.2.method) := by
      rw [heq]
      exact splitPipe_append hp hm
    constructor
    · rw [hsp]
      exact heq.symm
    · rw [hsp]
      exact groupTransform_self kr.2
  have hsortP : sortedP r := sortedKeysB_pairwise h.1
  have hnodup0 : (r.map fun kr =>
      (splitPipe kr.1).1 ++ "|" ++ (splitPipe kr.1).2).Nodup := by
    rw [List.map_congr_left (fun kr hkr => (hkey kr hkr).1)]
    exact sortedP_keys_nodup hsortP
  have hgp := routerGroup_flatGT_aux r []
    List.Pairwise.nil (by intro pm hpm; simp at hpm) hnodup0
  have he : r.map (fun kr => ((splitPipe kr.1).1 ++ "|" ++ (splitPipe kr.1).2,
      groupTransform (splitPipe kr.1).1 (splitPipe kr.1).2 kr.2))
      = transformPaths r := by
    refine List.map_congr_left ?_
    intro kr hkr
    obtain ⟨h1, h2⟩ := hkey kr hkr
    rw [h1, h2]
  have hnilG : flatGT ([] : List (String × List (String × Route))) = [] := rfl
  rw [hnilG, List.append_nil, he] at hgp
  have hwfg : ∀ pm ∈ routerGroup r, ∀ mr ∈ pm.2, wfRouteB mr.2 = true :=
    routerGroup_routes r [] (by intro pm hpm; simp at hpm)
      (fun kr hkr => (hprops kr hkr).2.2.2)
  have hm : routerUnmarshal (routerMarshal r)
      = .ok (List.foldl alInsertKV [] (flatGT (routerGroup r))) := by
    rw [routerMarshal]
    show routerUnmarshalPaths [] ((routerGroup r).map fun pm =>
      (pm.1, JVal.jobj (pm.2.map fun mr => (mr.1, serRoute mr.2)))) = _
    exact routerUnmarshalPaths_ser (routerGroup r) [] hwfg
  rw [hm]
  refine congrArg Except.ok ?_
  have htpkeys : (transformPaths r).map Prod.fst = r.map Prod.fst := by
    rw [transformPaths, List.map_map]
    exact List.map_congr_left (fun kr _ => rfl)
  have hnody : ((flatGT (routerGroup r)).map Prod.fst).Nodup := by
    refine ((hgp.map Prod.fst).nodup_iff).2 ?_
    rw [htpkeys]
    exact sortedP_keys_nodup hsortP
  have hsorted1 : sortedP (List.foldl alInsertKV [] (flatGT (routerGroup r))) :=
    foldl_alInsertKV_sortedP _ [] List.Pairwise.nil
  have hsorted2 : sortedP (transformPaths r) := by
    refine List.pairwise_map.2 ?_
    exact hsortP.imp (fun hab => hab)
  refine sortedP_ext hsorted1 hsorted2 ?_
  intro k
  rw [alGet_foldl_alInsertKV _ hnody [] k]
  have hor : (alGet (flatGT (routerGroup r)) k).or (alGet ([] : Router) k)
      = alGet (flatGT (routerGroup r)) k := by
    cases alGet (flatGT (routerGroup r)) k <;> rfl
  rw [hor]
  exact alGet_eq_of_perm hgp hnody k

theorem parseInfo_serInfo (i : Info) : parseInfo (serInfo i) = i := rfl

theorem serSchemaProps_map (ps : List (String × Schema)) :
    serSchemaProps ps = ps.map fun p => (p.1, serSchema p.2) := by
  induction ps with
  | nil => rfl
  | cons a t ih =>
    obtain ⟨k, s⟩ := a
    rw [serSchemaProps, ih, List.map_cons]

theorem parseComponents_serComponents {c : Components}
    (hs : sortedKeysB c.schemas = true)
    (hw : ∀ ks ∈ c.schemas, wfSchemaB ks.2 = true) :
    parseComponents (serComponents c) = c := by
  obtain ⟨schemas⟩ := c
  have hred : parseComponents (serComponents ⟨schemas⟩)
      = ⟨parseSchemaProps (schemas.map fun ks => (ks.1, serSchema ks.2)) []⟩ := rfl
  rw [hred, ← serSchemaProps_map, parseSchemaProps_foldl]
  refine congrArg Components.mk ?_
  refine foldl_rebuild hs ?_
  intro e he
  obtain ⟨k, s⟩ := e
  rw [parseSchema_serSchema (hw (k, s) he)]

/-! ## C6: the round-trip claim -/

/-- C6 (counterexample): for the document `c6doc` — one route with a
request body, a 200 and a 400 response, and a path parameter — the
deserialized route table is NOT equal to the original: every parsed
`Response.Status` is the zero code (the field carries `json:"-"`), and the
parameter map is dropped (`Params.UnmarshalJSON` discards the parsed list),
while the original carries statuses `[200, 400]` and one parameter.  Hence
`parse(serialize(doc)).paths ≠ doc.paths`. -/
theorem c6_counterexample :
    (parseDoc (serialize c6doc)).map (fun o => o.paths.map fun kr =>
        (kr.2.responses.map fun cr => cr.2.status, kr.2.params))
      = .ok [([0, 0], none)]
    ∧ c6doc.paths.map (fun kr =>
        (kr.2.responses.map fun cr => cr.2.status, kr.2.params))
      = [([200, 400], some c6params)]
    ∧ (0 : Int) ≠ 200 :=
  ⟨rfl, rfl, by decide⟩

/-- C6 (amended): for every well-formed document (route keys sorted and of
the form `path|method` with pipe-free parts, response/content maps sorted,
example values in the JSON-normal image), deserializing the serialized JSON
reproduces the document except that in every route each `Response.Status`
is reset to the zero code and the parameter map is dropped; request bodies,
responses (keyed by status code), tags and summaries are preserved. -/
theorem c6_amended_theorem (o : OpenAPI) (hwf : wfDocB o = true) :
    parseDoc (serialize o) = .ok { o with paths := transformPaths o.paths } := by
  obtain ⟨v, i, ps, comps⟩ := o
  rw [wfDocB, Bool.and_eq_true, Bool.and_eq_true] at hwf
  have h1 : parseDoc (serialize ⟨v, i, ps, comps⟩)
      = (match routerUnmarshal (routerMarshal ps) with
         | .error e => .error e
         | .ok ps2 =>
           Except.ok { version := v, info := parseInfo (serInfo i),
                       paths := ps2,
                       components := parseComponents (serComponents comps) }) := rfl
  rw [h1, routerMarshal_roundtrip hwf.1.1]
  show Except.ok ({ version := v, info := parseInfo (serInfo i),
                    paths := transformPaths ps,
                    components := parseComponents (serComponents comps) } : OpenAPI)
    = Except.ok ({ version := v, info := i, paths := transformPaths ps,
                   components := comps } : OpenAPI)
  rw [parseInfo_serInfo,
    parseComponents_serComponents hwf.1.2 (List.all_eq_true.1 hwf.2)]

/-- C6 witness: the amended round trip evaluated at the concrete document
`c6doc` (request body, 200 and 400 responses, one parameter). -/
theorem c6_witness :
    wfDocB c6doc = true
    ∧ parseDoc (serialize c6doc)
      = .ok { c6doc with paths := transformPaths c6doc.paths } :=
  ⟨rfl, c6_amended_theorem c6doc rfl⟩

end GoOpenAPI
